import Mathlib

/-!
Shallow embedding of the `tapssp-project` Rust sources: a bytecode
interpreter for the Lox language consisting of a scanner (`scanner.rs`), a
single-pass compiler (`compiler.rs`), a stack-based virtual machine
(`vm.rs`), and an open-addressing hash table (`table.rs`) used for globals
and string interning.

Modelling conventions:
* Rust `usize`/`u8`/`u16` become `Nat`; wrapping arithmetic carries an
  explicit `% 2 ^ 64`, and the `u8`/`u16` range checks that the source
  performs with `try_from` are embedded as explicit comparisons.
* `f64` payloads of `Value::Number` are opaque to every claim verified
  here (no claim depends on float arithmetic or on NaN); they are carried
  as `Int`.
* `Vec<T>` becomes `List T`; raw-pointer iteration over a heap array
  (`table.rs`) becomes index arithmetic over a `List` of slots.
* The `OpCode` used below is the payload-carrying enum that `compiler.rs`
  and `vm.rs` pattern-match (`Constant(u8)`, `Jump(u16)`, `Call(u8)`, ...);
  the fieldless listing in `op.rs` is a stale remnant that neither the
  compiler nor the VM uses.
* Fallible operations return `Except` / `Option` mirroring
  `Result` / `Option` in the source.
-/

namespace Tapssp

/-- One step of the FNV-1a hash from `objects.rs` (`LoxString::hash`):
`hash ^= c as usize; hash = hash.wrapping_mul(16777619)`.  `usize` is
64-bit, so the wrapping multiplication is reduction modulo `2 ^ 64`; the
xor of two numbers below `2 ^ 64` stays below `2 ^ 64`.  `c as usize` is
the Unicode scalar value of the char, i.e. `Char.toNat`. -/
def fnvStep (hash : Nat) (c : Char) : Nat :=
  ((hash ^^^ c.toNat) * 16777619) % 2 ^ 64

/-- `LoxString::hash` (objects.rs lines 42-49): FNV-1a over the chars of
the string, seeded with `2166136261`. -/
def loxHash (s : String) : Nat :=
  s.data.foldl fnvStep 2166136261

/-- `LoxString` (objects.rs lines 15-19): the string contents together
with the cached hash.  The derived `PartialEq`/`Eq` compares both fields,
which structural equality of this structure matches. -/
structure LoxString where
  value : String
  hash : Nat
deriving DecidableEq, Repr

/-- `LoxString::new` (objects.rs lines 28-36): computes the hash of the
contents; `from_string` (lines 38-40) is the same function. -/
def LoxString.new (value : String) : LoxString :=
  { value := value, hash := loxHash value }

/-- The payload-carrying opcode enum consumed by `compiler.rs` and
`vm.rs`.  Index payloads are `u8` and jump offsets `u16` in the source;
the compiler enforces those ranges with `try_from` (embedded below as
explicit bounds checks), so the payloads are carried as `Nat`. -/
inductive OpCode where
  | Constant (index : Nat)
  | Nil
  | True
  | False
  | Pop
  | GetLocal (index : Nat)
  | SetLocal (index : Nat)
  | GetGlobal (index : Nat)
  | DefGlobal (index : Nat)
  | SetGlobal (index : Nat)
  | Equal
  | Greater
  | Less
  | Add
  | Subtract
  | Multiply
  | Divide
  | Not
  | Negate
  | Print
  | Jump (offset : Nat)
  | JumpIfFalse (offset : Nat)
  | Loop (offset : Nat)
  | Call (argCount : Nat)
  | Return
deriving DecidableEq, Repr

mutual
/-- `Value` (value.rs lines 6-14).  `Number(f64)` is carried as `Int`
(opaque to every claim below); `String(Rc<LoxString>)` and
`Function(Rc<Function>)` dereference their `Rc` for the derived
`PartialEq`, so the `Rc` indirection is dropped; `NativeFunction` wraps a
function pointer that no verified claim ever invokes, carried as an
opaque identifier. -/
inductive Value where
  | Number (n : Int)
  | protected Bool (b : Bool)
  | protected String (s : LoxString)
  | protected Function (f : Function)
  | NativeFunction (id : Nat)
  | Nil

/-- `Function` (objects.rs lines 52-57): name, bytecode block and arity. -/
inductive Function where
  | mk (name : LoxString) (arity : Nat) (block : Block)

/-- `Block` (block.rs lines 4-9): code, constant pool and line table. -/
inductive Block where
  | mk (code : List OpCode) (constants : List Value) (lines : List Nat)
end

/-- Field accessor for `Function.name`. -/
def Function.name : Function → LoxString
  | .mk n _ _ => n

/-- Field accessor for `Function.arity`. -/
def Function.arity : Function → Nat
  | .mk _ a _ => a

/-- Field accessor for `Function.block`. -/
def Function.block : Function → Block
  | .mk _ _ b => b

/-- Field accessor for `Block.code`. -/
def Block.code : Block → List OpCode
  | .mk c _ _ => c

/-- Field accessor for `Block.constants`. -/
def Block.constants : Block → List Value
  | .mk _ k _ => k

/-- Field accessor for `Block.lines`. -/
def Block.lines : Block → List Nat
  | .mk _ _ l => l

/-- `impl PartialEq for NativeFunction` (objects.rs lines 92-96) is
`std::ptr::eq(&self, &other)`: it compares the addresses of the two
local reference parameters `self : &Self` and `other : &Self` themselves
(not the pointees).  The two addresses are modelled as the `Nat` inputs;
the comparison is address equality. -/
def nativeFunctionPtrEq (selfSlot otherSlot : Nat) : Bool :=
  selfSlot == otherSlot

mutual
/-- The derived `PartialEq` of `Value` (value.rs line 6): same variant and
equal payloads.  The `NativeFunction` arm is `nativeFunctionPtrEq` applied
to the addresses of the two distinct live reference parameters of the
`eq` call; distinct live locals have distinct addresses, so that arm is
constantly `false` (see `nativeFunctionPtrEq_ne`). -/
def Value.beq : Value → Value → Bool
  | .Number a, .Number b => a == b
  | .Bool a, .Bool b => a == b
  | .String a, .String b => a == b
  | .Function a, .Function b => Function.beq a b
  | .NativeFunction _, .NativeFunction _ => false
  | .Nil, .Nil => true
  | _, _ => false

/-- The derived `PartialEq` of `Function` (objects.rs line 52): compares
name, block and arity field-wise. -/
def Function.beq : Function → Function → Bool
  | .mk n1 a1 b1, .mk n2 a2 b2 => n1 == n2 && a1 == a2 && Block.beq b1 b2

/-- The derived `PartialEq` of `Block` (block.rs line 4): compares code,
constants and lines field-wise. -/
def Block.beq : Block → Block → Bool
  | .mk c1 k1 l1, .mk c2 k2 l2 =>
    c1 == c2 && Value.listBeq k1 k2 && l1 == l2

/-- Element-wise equality of constant pools (`Vec<Value>` equality). -/
def Value.listBeq : List Value → List Value → Bool
  | [], [] => true
  | a :: as, b :: bs => Value.beq a b && Value.listBeq as bs
  | _, _ => false
end

/-- `v == Value::Nil`, the comparison `Table::set` performs on the old
value of the slot (table.rs line 54): the derived `PartialEq` compared
with the payload-free variant `Nil` is exactly the variant test.  The
lemma `beq_nil_eq_isNilValue` proves this equal to `Value.beq v Nil`;
this computable form is used inside `Table.set` because the mutual
`Value.beq` is compiled by well-founded recursion and does not reduce
definitionally. -/
def Value.isNilValue : Value → Bool
  | .Nil => true
  | _ => false

/-- The derived `PartialEq` against `Nil` is the variant test. -/
theorem beq_nil_eq_isNilValue (v : Value) :
    Value.beq v Value.Nil = v.isNilValue := by
  cases v <;> simp [Value.beq, Value.isNilValue]

/-- `Value::is_truthy` (value.rs lines 43-49), exactly as written: the
`Bool` arm returns the wrapped bool, the `Nil` arm returns `false`, and
the wildcard arm returns `false` as well — so every non-`Bool` value,
including every `Number` and `String`, is untruthy in this code. -/
def Value.is_truthy : Value → Bool
  | .Bool b => b
  | .Nil => false
  | _ => false

/-- `Value::is_falsey` (value.rs lines 51-53): negation of `is_truthy`. -/
def Value.is_falsey (v : Value) : Bool :=
  !v.is_truthy

/-- `Value::as_number` (value.rs lines 55-61). -/
def Value.as_number : Value → Option Int
  | .Number n => some n
  | _ => none

/-- C1: the claim states that every value other than `Nil` and
`Bool(false)` is truthy.  The code's `is_truthy` has `_ => false` as its
wildcard arm, so `Number(1.0)` — truthy per the claim and per Lox
semantics — is falsey: `is_truthy (Number 1) = false`, and likewise for
strings, while only `Bool(true)` is truthy. -/
theorem C1_is_truthy_rejects_numbers :
    Value.is_truthy (Value.Number 1) = false ∧
    Value.is_truthy (Value.String (LoxString.new "x")) = false ∧
    Value.is_truthy (Value.Bool true) = true ∧
    Value.is_truthy Value.Nil = false ∧
    Value.is_truthy (Value.Bool false) = false :=
  ⟨rfl, rfl, rfl, rfl, rfl⟩

/-! ## The open-addressing hash table (`table.rs`)

The heap array `entries: *mut Entry` of length `capacity` is modelled as a
`List Entry` of that length; pointer arithmetic `entries.add(index)`
becomes indexing.  The unbounded probe `loop` of `find_entry` is given
`capacity` units of fuel and returns `Option Nat` (an index): `none`
means the Rust loop never returns — after `capacity` probe steps
`(index + 1) & (capacity - 1)` has visited every slot, so a loop that has
not stopped by then revisits slots forever (see `findEntryGo_none_of_none`
style reasoning below); for every table that keeps a true-empty slot the
result is `some` (`find_entry_isSome`). -/

/-- `Entry` (table.rs lines 6-9). -/
structure Entry where
  key : Option LoxString
  value : Value

/-- `Table` (table.rs lines 11-16). -/
structure Table where
  count : Nat
  capacity : Nat
  entries : List Entry

/-- `Table::new` (table.rs lines 21-27): the null heap pointer with
capacity 0 is the empty list. -/
def Table.new : Table :=
  { count := 0, capacity := 0, entries := [] }

/-- The probe loop of `Table::find_entry` (table.rs lines 128-146).  One
recursive call per iteration of the Rust `loop`:

* a slot whose key equals the searched key is returned;
* a slot with a key that differs advances to `(index + 1) & (capacity-1)`;
* a keyless slot is returned at once — whether its value is `Nil`
  (true-empty) **or** `Bool(true)` (tombstone);
* the remaining arm (`_ => continue`) re-enters the loop **without**
  executing the index increment at the bottom of the loop body, i.e. it
  spins on the same slot forever; it is modelled as a self-call on the
  same index and can only burn fuel.

An out-of-range index (impossible when `entries` has length `capacity`,
which every constructed table maintains) stops with `none`, as does fuel
exhaustion, which corresponds to the Rust loop diverging. -/
def findEntryGo (entries : List Entry) (key : LoxString) (capacity : Nat) :
    Nat → Nat → Option Nat
  | 0, _ => none
  | fuel + 1, index =>
    match entries[index]? with
    | none => none
    | some entry =>
      match entry.key with
      | some k =>
        if k = key then some index
        else findEntryGo entries key capacity fuel ((index + 1) &&& (capacity - 1))
      | none =>
        match entry.value with
        | .Nil => some index
        | .Bool true => some index
        | _ => findEntryGo entries key capacity fuel index

/-- `Table::find_entry` (table.rs lines 123-147): the probe starts at
`key.hash & (capacity - 1)`. -/
def Table.find_entry (t : Table) (key : LoxString) : Option Nat :=
  findEntryGo t.entries key t.capacity t.capacity (key.hash &&& (t.capacity - 1))

/-- `Table::get` (table.rs lines 29-42).  The `none` branch of
`find_entry` is the diverging Rust loop; no behaviour needs to be
ascribed to it, and `none` is returned arbitrarily. -/
def Table.get (t : Table) (key : LoxString) : Option Value :=
  if t.count = 0 then none
  else
    match t.find_entry key with
    | none => none
    | some i =>
      match t.entries[i]? with
      | none => none
      | some entry => if entry.key.isNone then none else some entry.value

/-- `(self.capacity as f32 * Self::MAX_LOAD) as usize` with
`MAX_LOAD = 0.75` (table.rs lines 19 and 46).  For the capacities this
table ever has (0 and powers of two), `capacity * 0.75 = 3 * 2 ^ (k - 2)`
is exact in `f32` and the cast truncates, so the value is
`3 * capacity / 4`. -/
def maxLoadThreshold (capacity : Nat) : Nat :=
  3 * capacity / 4

/-- The reinsertion step inside `Table::adjust_capacity` (table.rs lines
161-168): the destination slot is located with `find_entry` in the new
array and the key/value pair is written there.  The `none` branch is the
diverging loop, unreachable because the fresh array keeps empty slots. -/
def rehashInsert (entries : List Entry) (capacity : Nat) (k : LoxString)
    (v : Value) : List Entry :=
  match findEntryGo entries k capacity capacity (k.hash &&& (capacity - 1)) with
  | some i => entries.set i ⟨some k, v⟩
  | none => entries

/-- `Table::adjust_capacity` (table.rs lines 149-182): allocate
`new_capacity` slots initialised to `(None, Nil)`, then walk the old
array in index order, reinsert every keyed entry and recount. -/
def Table.adjust_capacity (t : Table) (newCapacity : Nat) : Table :=
  let init : List Entry := List.replicate newCapacity ⟨none, Value.Nil⟩
  let rebuilt := t.entries.foldl
    (fun (acc : List Entry × Nat) e =>
      match e.key with
      | some k => (rehashInsert acc.1 newCapacity k e.value, acc.2 + 1)
      | none => acc)
    (init, 0)
  { count := rebuilt.2, capacity := newCapacity, entries := rebuilt.1 }

/-- `Table::set` (table.rs lines 44-63): grow when
`count + 1 > capacity * 0.75` (doubling, starting at 8), find the slot,
bump `count` only when filling a true-empty slot (`is_new` and old value
`Nil`), write the pair, and return `is_new` — `true` iff the slot had no
key.  The impossible diverging-probe branch leaves the table unchanged
and returns `false`. -/
def Table.set (t : Table) (key : LoxString) (value : Value) : Table × Bool :=
  let t :=
    if t.count + 1 > maxLoadThreshold t.capacity then
      t.adjust_capacity (if t.capacity = 0 then 8 else t.capacity * 2)
    else t
  match t.find_entry key with
  | none => (t, false)
  | some i =>
    match t.entries[i]? with
    | none => (t, false)
    | some entry =>
      let isNew := entry.key.isNone
      let count := if isNew && entry.value.isNilValue then t.count + 1 else t.count
      ({ count := count, capacity := t.capacity,
         entries := t.entries.set i ⟨some key, value⟩ }, isNew)

/-- `Table::delete` (table.rs lines 65-80): an empty table or a keyless
slot reports `false`; otherwise the slot's key is cleared and its value
set to the tombstone marker `Bool(true)`.  `count` is not changed. -/
def Table.delete (t : Table) (key : LoxString) : Table × Bool :=
  if t.count = 0 then (t, false)
  else
    match t.find_entry key with
    | none => (t, false)
    | some i =>
      match t.entries[i]? with
      | none => (t, false)
      | some entry =>
        if entry.key.isNone then (t, false)
        else ({ t with entries := t.entries.set i ⟨none, Value.Bool true⟩ }, true)

/-- C2: the claim states that `find_entry` passes over tombstones while
probing (returning the first tombstone only if no matching entry is
reached), so that a key stored past a tombstone on its probe sequence is
still found after an unrelated deletion.  In the code a keyless slot —
tombstone (`Bool(true)`) and true-empty (`Nil`) alike — stops the probe
immediately, so the key is lost: `"a"` and `"i"` both hash to bucket 4 of
an 8-slot table, so `"i"` is stored one slot past `"a"`; after inserting
both, `"i"` is found, but deleting `"a"` leaves a tombstone at bucket 4
and `get "i"` then probes to that tombstone and returns `none`. -/
theorem C2_tombstone_terminates_probe :
    (loxHash "a") &&& 7 = 4 ∧ (loxHash "i") &&& 7 = 4 ∧
    (let t1 := (Table.new.set (LoxString.new "a") (Value.Bool true)).1
     let t2 := (t1.set (LoxString.new "i") (Value.Number 7)).1
     let t3 := (t2.delete (LoxString.new "a")).1
     t2.get (LoxString.new "i") = some (Value.Number 7) ∧
     (t3.delete (LoxString.new "a")).2 = false ∧
     t3.get (LoxString.new "i") = none) := by
  refine ⟨by decide, by decide, ?_, ?_, ?_⟩ <;> rfl

/-! ## The virtual machine (`vm.rs`)

State modelling: the fixed array `stack: [Value; MAX_STACK]` with live
prefix `stack_top` becomes the list of live values (bottom first, so
absolute indices match the source; `stack_top` is the length); the array
`frames: [CallFrame; MAX_FRAMES]` with live prefix `frame_count` becomes
the list of live frames most-recent-first (the only absolute-index access
in the source is `frames[frame_count - 1]`, the head).  The raw
instruction pointer into a function's code becomes an index.  One
iteration of the `run` loop is `step`; `none` marks executions on which
the Rust program panics or commits undefined behaviour (stack underflow,
out-of-range reads), which no claim exercises. -/

/-- Modelled from the spec: the module `error.rs` (`LoxError`) is declared
in `main.rs` but its source is not under `src/`.  Per the spec's error
classes, a compile error carries parse/emission diagnostics and a runtime
error carries the message of the first violated runtime invariant; the
constructor shapes `CompileError(String)` / `RuntimeError(String)` are
the ones `compiler.rs` and `vm.rs` construct. -/
inductive LoxError where
  | CompileError (msg : String)
  | RuntimeError (msg : String)
deriving DecidableEq, Repr

/-- `VM::MAX_FRAMES` (vm.rs line 48). -/
def MAX_FRAMES : Nat := 64

/-- `VM::MAX_STACK` (vm.rs line 49): `MAX_FRAMES * u8::MAX as usize`,
i.e. `64 * 255`. -/
def MAX_STACK : Nat := MAX_FRAMES * 255

/-- `CallFrame` (vm.rs lines 8-13): function, instruction pointer
(modelled as an index into the function's code), and the stack slot
base. -/
structure CallFrame where
  function : Function
  ip : Nat
  slots : Nat

/-- `CallFrame::new` (vm.rs lines 16-26): ip starts at the beginning of
the function's code. -/
def CallFrame.new (function : Function) (slot : Nat) : CallFrame :=
  { function := function, ip := 0, slots := slot }

/-- The `VM` state (vm.rs lines 37-45) as acted on by `run`: value stack,
frame stack and the two tables.  `init_time` only feeds the `clock`
native and is not part of the model. -/
structure VMState where
  frames : List CallFrame
  stack : List Value
  strings : Table
  globals : Table

/-- `stack_top` is the length of the live stack prefix. -/
def VMState.stack_top (s : VMState) : Nat :=
  s.stack.length

/-- `VM::peek` (vm.rs lines 81-83): `stack[stack_top - 1 - n]`.  The
guard `n < length` is exactly the condition under which the subtraction
does not underflow (underflow panics in the source: `none`). -/
def peekStack (stack : List Value) (n : Nat) : Option Value :=
  if n < stack.length then stack[stack.length - 1 - n]? else none

/-- `VM::pop` (vm.rs lines 76-79): decrement `stack_top` and read the
slot.  Popping an empty stack underflows `usize` in the source: `none`. -/
def popStack (stack : List Value) : Option (Value × List Value) :=
  match stack.getLast? with
  | none => none
  | some v => some (v, stack.dropLast)

/-- `Block::read_constant` (block.rs lines 31-33); an out-of-range index
panics in the source: `none`. -/
def Block.read_constant (b : Block) (index : Nat) : Option Value :=
  b.constants[index]?

/-- `Block::read_string` (block.rs lines 35-41): the constant must be a
string; otherwise the source panics ("Not a string"): `none`. -/
def Block.read_string (b : Block) (index : Nat) : Option LoxString :=
  match b.read_constant index with
  | some (.String s) => some s
  | _ => none

/-- `VM::binary_op` (vm.rs lines 90-101): pop `b` then `a`, require both
numbers, push `f(a, b)`.  The source's pair of closures `op : fn(f64,f64)->T`
and `f : fn(T)->Value` is passed pre-composed.  The `Except` error is the
message the caller wraps in `RuntimeError`; `none` is stack underflow. -/
def binary_op (stack : List Value) (f : Int → Int → Value) :
    Option (Except String (List Value)) :=
  match popStack stack with
  | none => none
  | some (b, stack1) =>
    match popStack stack1 with
    | none => none
    | some (a, stack2) =>
      match a.as_number, b.as_number with
      | some aa, some bb => some (.ok (stack2 ++ [f aa bb]))
      | _, _ => some (.error "Operands must be numbers")

/-- `VM::call` (vm.rs lines 277-289): arity is checked first, then frame
exhaustion; on success a frame with `slots = stack_top - arg_count - 1`
is pushed.  (`stack_trace` on the arity path only prints.) -/
def call (s : VMState) (f : Function) (argCount : Nat) : Except LoxError VMState :=
  if f.arity ≠ argCount then
    .error (.RuntimeError
      ("Expected " ++ toString f.arity ++ " arguments but got " ++ toString argCount))
  else if s.frames.length = MAX_FRAMES then
    .error (.RuntimeError "Stack overflow")
  else
    .ok { s with frames := CallFrame.new f (s.stack.length - argCount - 1) :: s.frames }

/-- `VM::call_value` (vm.rs lines 261-275).  `nativeImpl` interprets the
opaque native-function pointer (the program only installs `clock`, whose
result depends on wall-clock state outside the model); no verified claim
executes a native call. -/
def call_value (nativeImpl : Nat → List Value → Value) (s : VMState)
    (argCount : Nat) : Option (Except LoxError VMState) :=
  match peekStack s.stack argCount with
  | none => none
  | some callee =>
    match callee with
    | .Function f => some (call s f argCount)
    | .NativeFunction id =>
      let start := s.stack.length - argCount
      let result := nativeImpl id (s.stack.drop start)
      some (.ok { s with
        stack := s.stack.take (s.stack.length - (argCount + 1)) ++ [result] })
    | _ => some (.error (.RuntimeError "Can only call functions"))

/-- Outcome of one iteration of the `run` loop (vm.rs lines 110-259):
continue looping, return `Ok(())` (the final `Return`), or return
`Err(e)` — in which case the VM object retains its (possibly mutated)
state, which the result carries. -/
inductive StepResult where
  | ok (s : VMState)
  | done (s : VMState)
  | err (e : LoxError) (s : VMState)

/-- One iteration of `VM::run` (vm.rs lines 110-259): fetch the opcode at
the current frame's ip, advance the ip, dispatch.  `none` marks paths on
which the source panics (no current frame, ip outside the code, stack
underflow, out-of-range constant or local index, pointer arithmetic
before the start of the code). -/
def step (nativeImpl : Nat → List Value → Value) (s : VMState) :
    Option StepResult :=
  match s.frames with
  | [] => none
  | cf :: restFrames =>
    match cf.function.block.code[cf.ip]? with
    | none => none
    | some op =>
      let cf1 : CallFrame := { cf with ip := cf.ip + 1 }
      let fs := cf1 :: restFrames
      match op with
      | .Constant index =>
        match cf.function.block.read_constant index with
        | none => none
        | some v => some (.ok { s with frames := fs, stack := s.stack ++ [v] })
      | .Nil => some (.ok { s with frames := fs, stack := s.stack ++ [Value.Nil] })
      | .True => some (.ok { s with frames := fs, stack := s.stack ++ [Value.Bool true] })
      | .False => some (.ok { s with frames := fs, stack := s.stack ++ [Value.Bool false] })
      | .Pop =>
        match popStack s.stack with
        | none => none
        | some (_, stack1) => some (.ok { s with frames := fs, stack := stack1 })
      | .GetLocal index =>
        match s.stack[cf.slots + index]? with
        | none => none
        | some v => some (.ok { s with frames := fs, stack := s.stack ++ [v] })
      | .SetLocal index =>
        match peekStack s.stack 0 with
        | none => none
        | some v =>
          if cf.slots + index < s.stack.length then
            some (.ok { s with frames := fs, stack := s.stack.set (cf.slots + index) v })
          else none
      | .GetGlobal index =>
        match cf.function.block.read_string index with
        | none => none
        | some name =>
          match s.globals.get name with
          | some v => some (.ok { s with frames := fs, stack := s.stack ++ [v] })
          | none =>
            some (.err (.RuntimeError ("Undefined variable '" ++ name.value ++ "'"))
              { s with frames := fs })
      | .DefGlobal index =>
        match cf.function.block.read_string index with
        | none => none
        | some name =>
          match popStack s.stack with
          | none => none
          | some (v, stack1) =>
            some (.ok
              { s with frames := fs, stack := stack1, globals := (s.globals.set name v).1 })
      | .SetGlobal index =>
        match cf.function.block.read_string index with
        | none => none
        | some name =>
          match peekStack s.stack 0 with
          | none => none
          | some v =>
            let setRes := s.globals.set name v
            if setRes.2 then
              some (.err (.RuntimeError ("Undefined variable '" ++ name.value ++ "'"))
                { s with frames := fs, globals := (setRes.1.delete name).1 })
            else
              some (.ok { s with frames := fs, globals := setRes.1 })
      | .Equal =>
        match popStack s.stack with
        | none => none
        | some (b, stack1) =>
          match popStack stack1 with
          | none => none
          | some (a, stack2) =>
            some (.ok { s with frames := fs, stack := stack2 ++ [Value.Bool (Value.beq a b)] })
      | .Greater =>
        match binary_op s.stack (fun a b => Value.Bool (decide (a > b))) with
        | none => none
        | some (.ok stack1) => some (.ok { s with frames := fs, stack := stack1 })
        | some (.error msg) => some (.err (.RuntimeError msg) { s with frames := fs })
      | .Less =>
        match binary_op s.stack (fun a b => Value.Bool (decide (a < b))) with
        | none => none
        | some (.ok stack1) => some (.ok { s with frames := fs, stack := stack1 })
        | some (.error msg) => some (.err (.RuntimeError msg) { s with frames := fs })
      | .Add =>
        match popStack s.stack with
        | none => none
        | some (b, stack1) =>
          match popStack stack1 with
          | none => none
          | some (a, stack2) =>
            match a, b with
            | .Number x, .Number y =>
              some (.ok { s with frames := fs, stack := stack2 ++ [Value.Number (x + y)] })
            | .String x, .String y =>
              some (.ok
                { s with frames := fs,
                         stack := stack2 ++ [Value.String (LoxString.new (x.value ++ y.value))] })
            | _, _ =>
              some (.err (.RuntimeError "Operands must be two numbers or two strings")
                { s with frames := fs })
      | .Subtract =>
        match binary_op s.stack (fun a b => Value.Number (a - b)) with
        | none => none
        | some (.ok stack1) => some (.ok { s with frames := fs, stack := stack1 })
        | some (.error msg) => some (.err (.RuntimeError msg) { s with frames := fs })
      | .Multiply =>
        match binary_op s.stack (fun a b => Value.Number (a * b)) with
        | none => none
        | some (.ok stack1) => some (.ok { s with frames := fs, stack := stack1 })
        | some (.error msg) => some (.err (.RuntimeError msg) { s with frames := fs })
      | .Divide =>
        match binary_op s.stack (fun a b => Value.Number (a / b)) with
        | none => none
        | some (.ok stack1) => some (.ok { s with frames := fs, stack := stack1 })
        | some (.error msg) => some (.err (.RuntimeError msg) { s with frames := fs })
      | .Not =>
        match popStack s.stack with
        | none => none
        | some (v, stack1) =>
          some (.ok { s with frames := fs, stack := stack1 ++ [Value.Bool v.is_falsey] })
      | .Negate =>
        match popStack s.stack with
        | none => none
        | some (v, stack1) =>
          match v.as_number with
          | some num => some (.ok { s with frames := fs, stack := stack1 ++ [Value.Number (-num)] })
          | none => some (.err (.RuntimeError "Operand must be a number") { s with frames := fs })
      | .Print =>
        match popStack s.stack with
        | none => none
        | some (_, stack1) => some (.ok { s with frames := fs, stack := stack1 })
      | .Jump offset =>
        some (.ok { s with frames := { cf1 with ip := cf1.ip + offset } :: restFrames })
      | .JumpIfFalse offset =>
        match peekStack s.stack 0 with
        | none => none
        | some v =>
          if v.is_falsey then
            some (.ok { s with frames := { cf1 with ip := cf1.ip + offset } :: restFrames })
          else
            some (.ok { s with frames := fs })
      | .Loop offset =>
        if 1 + offset ≤ cf1.ip then
          some (.ok { s with frames := { cf1 with ip := cf1.ip - (1 + offset) } :: restFrames })
        else none
      | .Call argCount =>
        match call_value nativeImpl { s with frames := fs } argCount with
        | none => none
        | some (.ok s1) => some (.ok s1)
        | some (.error e) => some (.err e { s with frames := fs })
      | .Return =>
        match popStack s.stack with
        | none => none
        | some (result, stack1) =>
          match restFrames with
          | [] =>
            match popStack stack1 with
            | none => none
            | some (_, stack2) =>
              some (.done { s with frames := [], stack := stack2 })
          | _ =>
            some (.ok
              { s with frames := restFrames, stack := stack1.take cf.slots ++ [result] })

/-! ## Jump emission in the compiler (`compiler.rs`) -/

/-- `Parser::patch_jump` (compiler.rs lines 707-727), acting on the code
vector of the current function: the patched offset is
`code.len() - offset - 1`; `u16::try_from` fails exactly when that
exceeds `u16::MAX = 65535`, reported through `error_previous` as
"Too much code to jump over." (modelled as `Except.error`; the source
records it in `had_error`, failing the compilation).  Patching a
non-jump instruction reports "Can only patch jump instructions.".
Reading past the end of the code vector panics in the source: `none`. -/
def patch_jump (code : List OpCode) (offset : Nat) :
    Option (Except String (List OpCode)) :=
  let jump := code.length - offset - 1
  if jump > 65535 then some (.error "Too much code to jump over.")
  else
    match code[offset]? with
    | some (.Jump _) => some (.ok (code.set offset (.Jump jump)))
    | some (.JumpIfFalse _) => some (.ok (code.set offset (.JumpIfFalse jump)))
    | some _ => some (.error "Can only patch jump instructions.")
    | none => none

/-- `Parser::emit_loop` (compiler.rs lines 694-705): emits
`Loop(code.len() - loop_start)`, with `u16::try_from` failing ("Loop body
too large.") above `65535`.  Every call site passes a `loop_start` that
is at most the current length, so the `Nat` subtraction is exact. -/
def emit_loop (code : List OpCode) (loopStart : Nat) :
    Except String (List OpCode) :=
  let offset := code.length - loopStart
  if offset > 65535 then .error "Loop body too large."
  else .ok (code ++ [.Loop offset])

/-! ## Claims about jumps, calls and equality -/

/-- C7: executing `JumpIfFalse(d)` advances the instruction pointer by
`d` (on top of the unconditional advance past the instruction itself) iff
the top of the value stack is falsey, and the resulting state differs
from the starting one only in the current frame's ip — in particular the
value stack (contents and `stack_top`) is untouched: the condition is
`peek`ed, never popped. -/
theorem C7_jumpIfFalse_peeks_and_keeps_stack
    (ni : Nat → List Value → Value) (s : VMState) (cf : CallFrame)
    (rest : List CallFrame) (d : Nat) (v : Value)
    (hf : s.frames = cf :: rest)
    (hop : cf.function.block.code[cf.ip]? = some (.JumpIfFalse d))
    (hv : peekStack s.stack 0 = some v) :
    step ni s = some (.ok { s with frames :=
      { cf with ip := if v.is_falsey then cf.ip + 1 + d else cf.ip + 1 } :: rest }) := by
  simp only [step, hf, hop, hv]
  cases hfalse : v.is_falsey <;> simp [hfalse]

/-- Witness for C7 at a concrete state: with `Nil` (falsey in this code)
on top of the stack, `JumpIfFalse 5` at ip 0 jumps to ip 6 and leaves the
stack `[Nil]` intact. -/
theorem C7_jumpIfFalse_witness :
    step (fun _ _ => Value.Nil)
      { frames := [CallFrame.new (Function.mk (LoxString.new "script") 0
          (Block.mk [OpCode.JumpIfFalse 5, OpCode.Pop] [] [1, 1])) 0],
        stack := [Value.Nil], strings := Table.new, globals := Table.new } =
    some (.ok
      { frames := [{ CallFrame.new (Function.mk (LoxString.new "script") 0
          (Block.mk [OpCode.JumpIfFalse 5, OpCode.Pop] [] [1, 1])) 0 with ip := 6 }],
        stack := [Value.Nil], strings := Table.new, globals := Table.new }) := by
  have h := C7_jumpIfFalse_peeks_and_keeps_stack (fun _ _ => Value.Nil)
    { frames := [CallFrame.new (Function.mk (LoxString.new "script") 0
        (Block.mk [OpCode.JumpIfFalse 5, OpCode.Pop] [] [1, 1])) 0],
      stack := [Value.Nil], strings := Table.new, globals := Table.new }
    (CallFrame.new (Function.mk (LoxString.new "script") 0
        (Block.mk [OpCode.JumpIfFalse 5, OpCode.Pop] [] [1, 1])) 0)
    [] 5 Value.Nil rfl rfl rfl
  simpa [CallFrame.new, Value.is_falsey, Value.is_truthy] using h

/-- Popping a stack with explicit top: the source's `pop` returns the
last live value and shortens the prefix by one. -/
theorem popStack_concat (l : List Value) (v : Value) :
    popStack (l ++ [v]) = some (v, l) := by
  simp [popStack]

/-- The derived equality of two canonically built strings (hash computed
from the contents by `LoxString::new`) is content equality: the hash
field is determined by the value field. -/
theorem loxString_new_beq (x y : String) :
    (LoxString.new x == LoxString.new y) = (x == y) := by
  by_cases h : x = y
  · subst h; simp
  · have h1 : LoxString.new x ≠ LoxString.new y := by
      simp [LoxString.new, h]
    simp [h, h1]

/-- Executing `Equal` (vm.rs lines 171-175): pop `b`, pop `a`, push the
derived `PartialEq` verdict. -/
theorem step_equal (ni : Nat → List Value → Value) (s : VMState)
    (cf : CallFrame) (rest : List CallFrame) (pre : List Value) (a b : Value)
    (hf : s.frames = cf :: rest)
    (hop : cf.function.block.code[cf.ip]? = some .Equal)
    (hs : s.stack = pre ++ [a, b]) :
    step ni s = some (.ok { s with frames := { cf with ip := cf.ip + 1 } :: rest, stack := pre ++ [Value.Bool (Value.beq a b)] }) := by
  have h1 : popStack s.stack = some (b, pre ++ [a]) := by
    rw [hs, show pre ++ [a, b] = (pre ++ [a]) ++ [b] by simp]
    exact popStack_concat _ _
  have h2 : popStack (pre ++ [a]) = some (a, pre) := popStack_concat _ _
  simp [step, hf, hop, h1, h2]

/-- C10: equality between native-function values is never true.  First
conjunct: `Equal` on two `NativeFunction` values — the same identifier
included, covering `clock == clock` — pushes `Bool false`, because the
`PartialEq` impl compares the addresses of its two reference parameters.
Second conjunct: that comparison, `nativeFunctionPtrEq`, is false at any
two distinct addresses, and the two parameter slots of one `eq` call are
distinct live locals. -/
theorem C10_native_equality_never_true :
    (∀ (ni : Nat → List Value → Value) (s : VMState) (cf : CallFrame)
       (rest : List CallFrame) (pre : List Value) (idA idB : Nat),
       s.frames = cf :: rest →
       cf.function.block.code[cf.ip]? = some .Equal →
       s.stack = pre ++ [Value.NativeFunction idA, Value.NativeFunction idB] →
       step ni s = some (.ok { s with frames := { cf with ip := cf.ip + 1 } :: rest, stack := pre ++ [Value.Bool false] })) ∧
    (∀ p q : Nat, p ≠ q → nativeFunctionPtrEq p q = false) := by
  constructor
  · intro ni s cf rest pre idA idB hf hop hs
    have h := step_equal ni s cf rest pre
      (Value.NativeFunction idA) (Value.NativeFunction idB) hf hop hs
    simpa [Value.beq] using h
  · intro p q hpq
    simp [nativeFunctionPtrEq, hpq]

/-- Witness for C10: `clock == clock` (the same native identifier on both
sides) evaluates to `Bool false`, and the pointer comparison at the
distinct concrete slot addresses 0 and 1 is false. -/
theorem C10_native_equality_witness :
    (step (fun _ _ => Value.Nil)
      { frames := [CallFrame.new (Function.mk (LoxString.new "script") 0
          (Block.mk [OpCode.Equal] [] [1])) 0],
        stack := [Value.NativeFunction 7, Value.NativeFunction 7],
        strings := Table.new, globals := Table.new } =
      some (.ok
        { frames := [{ CallFrame.new (Function.mk (LoxString.new "script") 0
            (Block.mk [OpCode.Equal] [] [1])) 0 with ip := 1 }],
          stack := [Value.Bool false], strings := Table.new, globals := Table.new })) ∧
    nativeFunctionPtrEq 0 1 = false := by
  constructor
  · have h := C10_native_equality_never_true.1 (fun _ _ => Value.Nil)
      { frames := [CallFrame.new (Function.mk (LoxString.new "script") 0
          (Block.mk [OpCode.Equal] [] [1])) 0],
        stack := [Value.NativeFunction 7, Value.NativeFunction 7],
        strings := Table.new, globals := Table.new }
      (CallFrame.new (Function.mk (LoxString.new "script") 0
          (Block.mk [OpCode.Equal] [] [1])) 0)
      [] [] 7 7 rfl rfl rfl
    simpa [CallFrame.new] using h
  · exact C10_native_equality_never_true.2 0 1 (by decide)

/-- C3: string equality through the `Equal` opcode is content equality,
independently of how each string value was produced.  First conjunct: for
canonically built strings (every string value the VM creates — literals
via `LoxString::from_string`, concatenations via `LoxString::new` inside
`Add` — is canonically built), `Equal` pushes exactly `Bool (x == y)` of
the contents.  Second conjunct: `Add` on two string values pushes the
canonically built concatenation.  Together they give the spec's
`"ab" + "c" == "abc"` example (see the witness).  Note the code has no
string interning — equality holds by content comparison of the derived
`PartialEq`, not by reference equality of interned handles. -/
theorem C3_string_equality_is_content_equality :
    (∀ (ni : Nat → List Value → Value) (s : VMState) (cf : CallFrame)
       (rest : List CallFrame) (pre : List Value) (x y : String),
       s.frames = cf :: rest →
       cf.function.block.code[cf.ip]? = some .Equal →
       s.stack = pre ++ [Value.String (LoxString.new x), Value.String (LoxString.new y)] →
       step ni s = some (.ok { s with frames := { cf with ip := cf.ip + 1 } :: rest, stack := pre ++ [Value.Bool (x == y)] })) ∧
    (∀ (ni : Nat → List Value → Value) (s : VMState) (cf : CallFrame)
       (rest : List CallFrame) (pre : List Value) (sa sb : LoxString),
       s.frames = cf :: rest →
       cf.function.block.code[cf.ip]? = some .Add →
       s.stack = pre ++ [Value.String sa, Value.String sb] →
       step ni s = some (.ok { s with frames := { cf with ip := cf.ip + 1 } :: rest, stack := pre ++ [Value.String (LoxString.new (sa.value ++ sb.value))] })) := by
  constructor
  · intro ni s cf rest pre x y hf hop hs
    have h := step_equal ni s cf rest pre
      (Value.String (LoxString.new x)) (Value.String (LoxString.new y)) hf hop hs
    simpa [Value.beq, loxString_new_beq] using h
  · intro ni s cf rest pre sa sb hf hop hs
    have h1 : popStack s.stack = some (Value.String sb, pre ++ [Value.String sa]) := by
      rw [hs, show pre ++ [Value.String sa, Value.String sb] =
        (pre ++ [Value.String sa]) ++ [Value.String sb] by simp]
      exact popStack_concat _ _
    have h2 : popStack (pre ++ [Value.String sa]) = some (Value.String sa, pre) :=
      popStack_concat _ _
    simp [step, hf, hop, h1, h2]

/-- Witness for C3: running the compiled form of `"ab" + "c" == "abc"` —
`Add` on the two literals, `Constant` loading `"abc"`, `Equal` — ends
with `Bool true` on the stack. -/
theorem C3_string_equality_witness :
    (step (fun _ _ => Value.Nil)
      { frames := [CallFrame.new (Function.mk (LoxString.new "script") 0
          (Block.mk [OpCode.Add, OpCode.Constant 0, OpCode.Equal]
            [Value.String (LoxString.new "abc")] [1, 1, 1])) 0],
        stack := [Value.String (LoxString.new "ab"), Value.String (LoxString.new "c")],
        strings := Table.new, globals := Table.new } =
      some (.ok
        { frames := [{ CallFrame.new (Function.mk (LoxString.new "script") 0
            (Block.mk [OpCode.Add, OpCode.Constant 0, OpCode.Equal]
              [Value.String (LoxString.new "abc")] [1, 1, 1])) 0 with ip := 1 }],
          stack := [Value.String (LoxString.new "abc")],
          strings := Table.new, globals := Table.new })) ∧
    (step (fun _ _ => Value.Nil)
      { frames := [{ CallFrame.new (Function.mk (LoxString.new "script") 0
          (Block.mk [OpCode.Add, OpCode.Constant 0, OpCode.Equal]
            [Value.String (LoxString.new "abc")] [1, 1, 1])) 0 with ip := 2 }],
        stack := [Value.String (LoxString.new "abc"), Value.String (LoxString.new "abc")],
        strings := Table.new, globals := Table.new } =
      some (.ok
        { frames := [{ CallFrame.new (Function.mk (LoxString.new "script") 0
            (Block.mk [OpCode.Add, OpCode.Constant 0, OpCode.Equal]
              [Value.String (LoxString.new "abc")] [1, 1, 1])) 0 with ip := 3 }],
          stack := [Value.Bool true], strings := Table.new, globals := Table.new })) := by
  constructor
  · have h := C3_string_equality_is_content_equality.2 (fun _ _ => Value.Nil)
      { frames := [CallFrame.new (Function.mk (LoxString.new "script") 0
          (Block.mk [OpCode.Add, OpCode.Constant 0, OpCode.Equal]
            [Value.String (LoxString.new "abc")] [1, 1, 1])) 0],
        stack := [Value.String (LoxString.new "ab"), Value.String (LoxString.new "c")],
        strings := Table.new, globals := Table.new }
      (CallFrame.new (Function.mk (LoxString.new "script") 0
          (Block.mk [OpCode.Add, OpCode.Constant 0, OpCode.Equal]
            [Value.String (LoxString.new "abc")] [1, 1, 1])) 0)
      [] [] (LoxString.new "ab") (LoxString.new "c") rfl rfl rfl
    simpa [CallFrame.new, LoxString.new] using h
  · have h := C3_string_equality_is_content_equality.1 (fun _ _ => Value.Nil)
      { frames := [{ CallFrame.new (Function.mk (LoxString.new "script") 0
          (Block.mk [OpCode.Add, OpCode.Constant 0, OpCode.Equal]
            [Value.String (LoxString.new "abc")] [1, 1, 1])) 0 with ip := 2 }],
        stack := [Value.String (LoxString.new "abc"), Value.String (LoxString.new "abc")],
        strings := Table.new, globals := Table.new }
      ({ CallFrame.new (Function.mk (LoxString.new "script") 0
          (Block.mk [OpCode.Add, OpCode.Constant 0, OpCode.Equal]
            [Value.String (LoxString.new "abc")] [1, 1, 1])) 0 with ip := 2 })
      [] [] "abc" "abc" rfl rfl rfl
    simpa [CallFrame.new] using h

/-- C8 (amended): `VM::call` checks arity before frame exhaustion.  With
matching arity, a call pushes a new frame (with
`slots = stack_top - arg_count - 1`) whenever `frame_count < MAX_FRAMES`,
and raises "Stack overflow" when `frame_count = MAX_FRAMES` (64); when
the arity does not match, the arity error is raised instead even at full
frames (see the counterexample `C8_arity_error_precedes_overflow`). -/
theorem C8_call_depth_behaviour (s : VMState) (f : Function) (n : Nat) :
    (f.arity = n → s.frames.length < MAX_FRAMES →
      call s f n = .ok { s with
        frames := CallFrame.new f (s.stack.length - n - 1) :: s.frames }) ∧
    (f.arity = n → s.frames.length = MAX_FRAMES →
      call s f n = .error (.RuntimeError "Stack overflow")) := by
  constructor
  · intro ha hlt
    simp [call, ha, Nat.ne_of_lt hlt]
  · intro ha heq
    simp [call, ha, heq]

/-- Witness for C8: on a state with 63 live frames a matching-arity call
pushes the 64th frame; on a state with 64 live frames it raises
"Stack overflow". -/
theorem C8_call_depth_witness :
    (call { frames := List.replicate 63 (CallFrame.new
              (Function.mk (LoxString.new "f") 0 (Block.mk [] [] [])) 0),
            stack := [Value.Nil], strings := Table.new, globals := Table.new }
        (Function.mk (LoxString.new "f") 0 (Block.mk [] [] [])) 0 =
      .ok { frames := CallFrame.new (Function.mk (LoxString.new "f") 0 (Block.mk [] [] [])) 0 ::
              List.replicate 63 (CallFrame.new
                (Function.mk (LoxString.new "f") 0 (Block.mk [] [] [])) 0),
            stack := [Value.Nil], strings := Table.new, globals := Table.new }) ∧
    (call { frames := List.replicate 64 (CallFrame.new
              (Function.mk (LoxString.new "f") 0 (Block.mk [] [] [])) 0),
            stack := [Value.Nil], strings := Table.new, globals := Table.new }
        (Function.mk (LoxString.new "f") 0 (Block.mk [] [] [])) 0 =
      .error (.RuntimeError "Stack overflow")) := by
  constructor
  · have h := (C8_call_depth_behaviour
      { frames := List.replicate 63 (CallFrame.new
          (Function.mk (LoxString.new "f") 0 (Block.mk [] [] [])) 0),
        stack := [Value.Nil], strings := Table.new, globals := Table.new }
      (Function.mk (LoxString.new "f") 0 (Block.mk [] [] [])) 0).1 rfl
      (by simp [MAX_FRAMES])
    simpa using h
  · have h := (C8_call_depth_behaviour
      { frames := List.replicate 64 (CallFrame.new
          (Function.mk (LoxString.new "f") 0 (Block.mk [] [] [])) 0),
        stack := [Value.Nil], strings := Table.new, globals := Table.new }
      (Function.mk (LoxString.new "f") 0 (Block.mk [] [] [])) 0).2 rfl
      (by simp [MAX_FRAMES])
    simpa using h

/-- C8 counterexample to the claim as stated: with `frame_count` already
at `MAX_FRAMES = 64`, a call whose argument count does not match the
callee's arity raises the arity error, not "Stack overflow" — arity is
checked first (vm.rs line 278). -/
theorem C8_arity_error_precedes_overflow :
    call { frames := List.replicate 64 (CallFrame.new
             (Function.mk (LoxString.new "f") 0 (Block.mk [] [] [])) 0),
           stack := [Value.Nil, Value.Nil], strings := Table.new, globals := Table.new }
      (Function.mk (LoxString.new "f") 0 (Block.mk [] [] [])) 1 =
      .error (.RuntimeError "Expected 0 arguments but got 1") ∧
    (LoxError.RuntimeError "Expected 0 arguments but got 1" ≠
      LoxError.RuntimeError "Stack overflow") := by
  exact ⟨rfl, by decide⟩

/-- C6: jump/loop emission and execution agree.  Conjuncts:
1-2. `patch_jump(pos)` on a `Jump`/`JumpIfFalse` placeholder writes the
offset `code.len - pos - 1` when that distance fits in a `u16`;
3. a distance above 65535 reports "Too much code to jump over.";
4. the VM executes `Jump(d)` at ip `p` by resuming at `p + 1 + d`;
5. hence a patched jump resumes at `pos + 1 + (len - pos - 1) = len`,
the instruction index that was current at patch time;
6. `emit_loop(target)` appends `Loop(code.len - target)` (when in
`u16` range);
7. the VM executes `Loop(off)` at ip `p` by resuming at
`(p + 1) - (1 + off) = p - off`;
8. hence the emitted loop at index `len` resumes at
`len - (len - target) = target`, the recorded `loop_start`. -/
theorem C6_patch_jump_emit_loop_agree :
    (∀ (code : List OpCode) (pos d0 : Nat), code[pos]? = some (.Jump d0) →
       code.length - pos - 1 ≤ 65535 →
       patch_jump code pos = some (.ok (code.set pos (.Jump (code.length - pos - 1))))) ∧
    (∀ (code : List OpCode) (pos d0 : Nat), code[pos]? = some (.JumpIfFalse d0) →
       code.length - pos - 1 ≤ 65535 →
       patch_jump code pos = some (.ok (code.set pos (.JumpIfFalse (code.length - pos - 1))))) ∧
    (∀ (code : List OpCode) (pos : Nat), code.length - pos - 1 > 65535 →
       patch_jump code pos = some (.error "Too much code to jump over.")) ∧
    (∀ (ni : Nat → List Value → Value) (s : VMState) (cf : CallFrame)
       (rest : List CallFrame) (d : Nat), s.frames = cf :: rest →
       cf.function.block.code[cf.ip]? = some (.Jump d) →
       step ni s = some (.ok { s with frames := { cf with ip := cf.ip + 1 + d } :: rest })) ∧
    (∀ (len pos : Nat), pos < len → pos + 1 + (len - pos - 1) = len) ∧
    (∀ (code : List OpCode) (target : Nat), target ≤ code.length →
       code.length - target ≤ 65535 →
       emit_loop code target = .ok (code ++ [.Loop (code.length - target)])) ∧
    (∀ (ni : Nat → List Value → Value) (s : VMState) (cf : CallFrame)
       (rest : List CallFrame) (off : Nat), s.frames = cf :: rest →
       cf.function.block.code[cf.ip]? = some (.Loop off) → off ≤ cf.ip →
       step ni s = some (.ok { s with frames := { cf with ip := cf.ip - off } :: rest })) ∧
    (∀ (len target : Nat), target ≤ len → len - (len - target) = target) := by
  refine ⟨?_, ?_, ?_, ?_, ?_, ?_, ?_, ?_⟩
  · intro code pos d0 hop hle
    have hc : ¬ (code.length - pos - 1 > 65535) := by omega
    simp [patch_jump, hc, hop]
  · intro code pos d0 hop hle
    have hc : ¬ (code.length - pos - 1 > 65535) := by omega
    simp [patch_jump, hc, hop]
  · intro code pos h
    simp [patch_jump, h]
  · intro ni s cf rest d hf hop
    simp [step, hf, hop]
  · intro len pos h
    omega
  · intro code target h1 h2
    have hc : ¬ (code.length - target > 65535) := by omega
    simp [emit_loop, hc]
  · intro ni s cf rest off hf hop hle
    have hc : 1 + off ≤ cf.ip + 1 := by omega
    have he : cf.ip + 1 - (1 + off) = cf.ip - off := by omega
    simp [step, hf, hop, hc, he]
  · intro len target h
    omega

/-- Witness for C6 at concrete inputs: patching the placeholder
`Jump 65535` at position 0 of a 3-instruction chunk writes `Jump 2`;
patching across 65536 instructions reports the compile error; executing
the patched jump resumes at the patch-time ip; `emit_loop` plus `Loop`
execution returns exactly to the recorded loop start. -/
theorem C6_patch_jump_emit_loop_witness :
    (patch_jump [OpCode.Jump 65535, OpCode.Pop, OpCode.Pop] 0 =
      some (.ok [OpCode.Jump 2, OpCode.Pop, OpCode.Pop])) ∧
    (patch_jump (OpCode.Jump 0 :: List.replicate 65536 OpCode.Pop) 0 =
      some (.error "Too much code to jump over.")) ∧
    (step (fun _ _ => Value.Nil)
      { frames := [CallFrame.new (Function.mk (LoxString.new "script") 0
          (Block.mk [OpCode.Jump 2, OpCode.Pop, OpCode.Pop] [] [1, 1, 1])) 0],
        stack := [Value.Nil], strings := Table.new, globals := Table.new } =
      some (.ok
        { frames := [{ CallFrame.new (Function.mk (LoxString.new "script") 0
            (Block.mk [OpCode.Jump 2, OpCode.Pop, OpCode.Pop] [] [1, 1, 1])) 0 with ip := 3 }],
          stack := [Value.Nil], strings := Table.new, globals := Table.new })) ∧
    (emit_loop [OpCode.Pop, OpCode.Pop] 1 = .ok [OpCode.Pop, OpCode.Pop, OpCode.Loop 1]) ∧
    (step (fun _ _ => Value.Nil)
      { frames := [{ CallFrame.new (Function.mk (LoxString.new "script") 0
          (Block.mk [OpCode.Pop, OpCode.Pop, OpCode.Loop 2] [] [1, 1, 1])) 0 with ip := 2 }],
        stack := [Value.Nil], strings := Table.new, globals := Table.new } =
      some (.ok
        { frames := [CallFrame.new (Function.mk (LoxString.new "script") 0
            (Block.mk [OpCode.Pop, OpCode.Pop, OpCode.Loop 2] [] [1, 1, 1])) 0],
          stack := [Value.Nil], strings := Table.new, globals := Table.new })) := by
  refine ⟨?_, ?_, ?_, ?_, ?_⟩
  · have h := C6_patch_jump_emit_loop_agree.1 [OpCode.Jump 65535, OpCode.Pop, OpCode.Pop]
      0 65535 rfl (by decide)
    simpa using h
  · exact C6_patch_jump_emit_loop_agree.2.2.1
      (OpCode.Jump 0 :: List.replicate 65536 OpCode.Pop) 0
      (by rw [List.length_cons, List.length_replicate]; omega)
  · have h := C6_patch_jump_emit_loop_agree.2.2.2.1 (fun _ _ => Value.Nil)
      { frames := [CallFrame.new (Function.mk (LoxString.new "script") 0
          (Block.mk [OpCode.Jump 2, OpCode.Pop, OpCode.Pop] [] [1, 1, 1])) 0],
        stack := [Value.Nil], strings := Table.new, globals := Table.new }
      (CallFrame.new (Function.mk (LoxString.new "script") 0
          (Block.mk [OpCode.Jump 2, OpCode.Pop, OpCode.Pop] [] [1, 1, 1])) 0)
      [] 2 rfl rfl
    simpa [CallFrame.new] using h
  · have h := C6_patch_jump_emit_loop_agree.2.2.2.2.2.1 [OpCode.Pop, OpCode.Pop] 1
      (by decide) (by decide)
    simpa using h
  · have h := C6_patch_jump_emit_loop_agree.2.2.2.2.2.2.1 (fun _ _ => Value.Nil)
      { frames := [{ CallFrame.new (Function.mk (LoxString.new "script") 0
          (Block.mk [OpCode.Pop, OpCode.Pop, OpCode.Loop 2] [] [1, 1, 1])) 0 with ip := 2 }],
        stack := [Value.Nil], strings := Table.new, globals := Table.new }
      ({ CallFrame.new (Function.mk (LoxString.new "script") 0
          (Block.mk [OpCode.Pop, OpCode.Pop, OpCode.Loop 2] [] [1, 1, 1])) 0 with ip := 2 })
      [] 2 rfl rfl (by decide)
    simpa [CallFrame.new] using h

/-! ## The scanner (`scanner.rs`)

`Scanner` walks `source.as_bytes()` with indices `start`/`current` and a
`line` counter.  The suffix `source.as_bytes()[current..]` is carried
explicitly as a byte list (`peek` is its head, `peek_next` the head of
its tail, `advance` uncons), together with the numeric `current` and
`line` so that token positions stay faithful to the source. -/

/-- `ScanError` (scanner.rs lines 13-19). -/
inductive ScanError where
  | UnexpectedCharacter (line : Nat)
  | UnterminatedString (line : Nat)
deriving DecidableEq, Repr

/-- `TokenType` (token.rs lines 2-22). -/
inductive TokenType where
  | LeftParen | RightParen | LeftBrace | RightBrace
  | Comma | Dot | Minus | Plus | Semicolon | Slash | Star
  | Bang | BangEqual | Equal | EqualEqual
  | Greater | GreaterEqual | Less | LessEqual
  | Identifier
  | protected String
  | Number
  | And | Class | Else
  | protected False
  | Fun | For | If
  | protected Nil
  | Or | Print | Return | Super | This
  | protected True
  | Var | While
  | Eof
deriving DecidableEq, Repr

/-- `Token` (token.rs lines 24-29); the source field `end` is spelled
`endPos` (`end` is reserved in Lean). -/
structure Token where
  token_type : TokenType
  start : Nat
  endPos : Nat
  line : Nat
deriving DecidableEq, Repr

/-- `is_digit` (scanner.rs lines 248-251): `u8::is_ascii_digit`. -/
def isDigit (c : Nat) : Bool :=
  48 ≤ c && c ≤ 57

/-- `is_alpha` (scanner.rs lines 243-246): ASCII lowercase, uppercase or
underscore. -/
def isAlpha (c : Nat) : Bool :=
  (97 ≤ c && c ≤ 122) || (65 ≤ c && c ≤ 90) || c == 95

/-- `is_alphanumeric` (scanner.rs lines 253-256). -/
def isAlphanumeric (c : Nat) : Bool :=
  isAlpha c || isDigit c

/-- The UTF-8 bytes of an ASCII string literal (all scanner keywords are
ASCII, so the code points are the bytes). -/
def strBytes (s : String) : List Nat :=
  s.data.map Char.toNat

/-- The `keywords` map built in `Scanner::new` (scanner.rs lines 23-39),
looked up with the identifier's lexeme (scanner.rs line 185). -/
def keywords (lexeme : List Nat) : Option TokenType :=
  if lexeme = strBytes "and" then some .And
  else if lexeme = strBytes "class" then some .Class
  else if lexeme = strBytes "else" then some .Else
  else if lexeme = strBytes "false" then some .False
  else if lexeme = strBytes "for" then some .For
  else if lexeme = strBytes "fun" then some .Fun
  else if lexeme = strBytes "if" then some .If
  else if lexeme = strBytes "nil" then some .Nil
  else if lexeme = strBytes "or" then some .Or
  else if lexeme = strBytes "print" then some .Print
  else if lexeme = strBytes "return" then some .Return
  else if lexeme = strBytes "super" then some .Super
  else if lexeme = strBytes "this" then some .This
  else if lexeme = strBytes "true" then some .True
  else if lexeme = strBytes "var" then some .Var
  else if lexeme = strBytes "while" then some .While
  else none

/-- The line-comment loop (scanner.rs lines 132-135):
`while !is_at_end && peek != newline { advance }`. -/
def lineCommentGo : List Nat → Nat → List Nat × Nat
  | [], current => ([], current)
  | c :: rest, current =>
    if c == 10 then (c :: rest, current)
    else lineCommentGo rest (current + 1)

/-- The block-comment loop (scanner.rs lines 139-150): while not at the
end, if `peek == b\'*\'` and `peek_next == b\'/\'` consume both and stop;
otherwise count a newline if the current byte is one and advance.
`peek_next` past the end reads as 0 (scanner.rs lines 222-228).  Returns
the remaining bytes, the new `current` and the new `line`. -/
def blockCommentGo : List Nat → Nat → Nat → List Nat × Nat × Nat
  | [], current, line => ([], current, line)
  | c :: rest, current, line =>
    if c == 42 && rest.headD 0 == 47 then
      (rest.drop 1, current + 2, line)
    else
      blockCommentGo rest (current + 1) (if c == 10 then line + 1 else line)

/-- The string-literal loop (scanner.rs lines 80-85):
`while !is_at_end && peek != b\'"\' { if peek == newline line += 1; advance }`. -/
def stringGo : List Nat → Nat → Nat → List Nat × Nat × Nat
  | [], current, line => ([], current, line)
  | c :: rest, current, line =>
    if c == 34 then (c :: rest, current, line)
    else stringGo rest (current + 1) (if c == 10 then line + 1 else line)

/-- The digit loop (scanner.rs lines 164-166 and 171-173):
`while is_digit(peek) { advance }`; `peek` past the end is 0, not a
digit. -/
def digitsGo : List Nat → Nat → List Nat × Nat
  | [], current => ([], current)
  | c :: rest, current =>
    if isDigit c then digitsGo rest (current + 1) else (c :: rest, current)

/-- The identifier loop (scanner.rs lines 180-182):
`while is_alphanumeric(peek) { advance }`. -/
def alnumGo : List Nat → Nat → List Nat × Nat
  | [], current => ([], current)
  | c :: rest, current =>
    if isAlphanumeric c then alnumGo rest (current + 1) else (c :: rest, current)

/-- Outcome of one `scan_token` call: the `Result<Option<Token>, ScanError>`
together with the scanner state it leaves behind (remaining bytes,
`current`, `line`). -/
structure ScanStep where
  result : Except ScanError (Option Token)
  rest : List Nat
  current : Nat
  line : Nat
deriving Repr

/-- `Scanner::scan_token` (scanner.rs lines 64-198) on the byte list from
position `start` (the caller `scan` sets `start = current` just before
the call, and only calls when not at the end — the empty-input case would
read out of bounds: `none`).  The first byte is consumed by `advance` and
dispatched exactly as the source `match byte` does, the guard arms
`is_digit` / `is_alpha` and the wildcard error arm last. -/
def scan_token : List Nat → Nat → Nat → Option ScanStep
  | [], _, _ => none
  | b :: rest, start, line =>
    let current := start + 1
    match b with
    | 40 => some ⟨.ok (some ⟨.LeftParen, start, current, line⟩), rest, current, line⟩
    | 41 => some ⟨.ok (some ⟨.RightParen, start, current, line⟩), rest, current, line⟩
    | 123 => some ⟨.ok (some ⟨.LeftBrace, start, current, line⟩), rest, current, line⟩
    | 125 => some ⟨.ok (some ⟨.RightBrace, start, current, line⟩), rest, current, line⟩
    | 44 => some ⟨.ok (some ⟨.Comma, start, current, line⟩), rest, current, line⟩
    | 46 => some ⟨.ok (some ⟨.Dot, start, current, line⟩), rest, current, line⟩
    | 45 => some ⟨.ok (some ⟨.Minus, start, current, line⟩), rest, current, line⟩
    | 43 => some ⟨.ok (some ⟨.Plus, start, current, line⟩), rest, current, line⟩
    | 59 => some ⟨.ok (some ⟨.Semicolon, start, current, line⟩), rest, current, line⟩
    | 42 => some ⟨.ok (some ⟨.Star, start, current, line⟩), rest, current, line⟩
    | 34 =>
      match stringGo rest current line with
      | (rest1, current1, line1) =>
        match rest1 with
        | [] => some ⟨.error (.UnterminatedString line1), [], current1, line1⟩
        | _ :: rest2 =>
          some ⟨.ok (some ⟨.String, start, current1 + 1, line1⟩), rest2, current1 + 1, line1⟩
    | 33 =>
      if rest.head? = some 61 then
        some ⟨.ok (some ⟨.BangEqual, start, current + 1, line⟩), rest.drop 1, current + 1, line⟩
      else some ⟨.ok (some ⟨.Bang, start, current, line⟩), rest, current, line⟩
    | 61 =>
      if rest.head? = some 61 then
        some ⟨.ok (some ⟨.EqualEqual, start, current + 1, line⟩), rest.drop 1, current + 1, line⟩
      else some ⟨.ok (some ⟨.Equal, start, current, line⟩), rest, current, line⟩
    | 62 =>
      if rest.head? = some 61 then
        some ⟨.ok (some ⟨.GreaterEqual, start, current + 1, line⟩), rest.drop 1, current + 1, line⟩
      else some ⟨.ok (some ⟨.Greater, start, current, line⟩), rest, current, line⟩
    | 60 =>
      if rest.head? = some 61 then
        some ⟨.ok (some ⟨.LessEqual, start, current + 1, line⟩), rest.drop 1, current + 1, line⟩
      else some ⟨.ok (some ⟨.Less, start, current, line⟩), rest, current, line⟩
    | 47 =>
      match rest.headD 0 with
      | 47 =>
        match lineCommentGo rest current with
        | (rest1, current1) => some ⟨.ok none, rest1, current1, line⟩
      | 42 =>
        match blockCommentGo (rest.drop 1) (current + 1) line with
        | (rest1, current1, line1) => some ⟨.ok none, rest1, current1, line1⟩
      | _ => some ⟨.ok (some ⟨.Slash, start, current, line⟩), rest, current, line⟩
    | 32 => some ⟨.ok none, rest, current, line⟩
    | 13 => some ⟨.ok none, rest, current, line⟩
    | 9 => some ⟨.ok none, rest, current, line⟩
    | 10 => some ⟨.ok none, rest, current, line + 1⟩
    | _ =>
      if isDigit b then
        match digitsGo rest current with
        | (rest1, current1) =>
          if rest1.headD 0 == 46 && isDigit ((rest1.drop 1).headD 0) then
            match digitsGo (rest1.drop 1) (current1 + 1) with
            | (rest2, current2) =>
              some ⟨.ok (some ⟨.Number, start, current2, line⟩), rest2, current2, line⟩
          else
            some ⟨.ok (some ⟨.Number, start, current1, line⟩), rest1, current1, line⟩
      else if isAlpha b then
        match alnumGo rest current with
        | (rest1, current1) =>
          let lexeme := (b :: rest).take (current1 - start)
          let tt := (keywords lexeme).getD .Identifier
          some ⟨.ok (some ⟨tt, start, current1, line⟩), rest1, current1, line⟩
      else
        some ⟨.error (.UnexpectedCharacter line), rest, current, line⟩

/-- `true` iff the byte list contains an adjacent `*/` pair — the
stopping condition of the block-comment loop. -/
def containsClosePair : List Nat → Bool
  | a :: b :: rest => (a == 42 && b == 47) || containsClosePair (b :: rest)
  | _ => false

/-- The block-comment loop consumes exactly up to and including the first
`*/` and counts the newlines strictly inside the comment body. -/
theorem blockCommentGo_closes (rest2 : List Nat) (inner : List Nat) (current line : Nat)
    (h : containsClosePair (inner ++ [42]) = false) :
    blockCommentGo (inner ++ 42 :: 47 :: rest2) current line =
      (rest2, current + inner.length + 2, line + inner.countP (fun c => c == 10)) := by
  induction inner generalizing current line with
  | nil => simp [blockCommentGo]
  | cons c inner ih =>
    have hpair : (c == 42 && (inner ++ 42 :: 47 :: rest2).headD 0 == 47) = false := by
      cases inner with
      | nil => simp
      | cons i0 inner2 =>
        simp only [containsClosePair, List.cons_append, Bool.or_eq_false_iff] at h
        simpa using h.1
    have h2 : containsClosePair (inner ++ [42]) = false := by
      cases inner with
      | nil => simp [containsClosePair]
      | cons i0 inner2 =>
        simp only [containsClosePair, List.cons_append, Bool.or_eq_false_iff] at h
        exact h.2
    rw [List.cons_append]
    rw [show blockCommentGo (c :: (inner ++ 42 :: 47 :: rest2)) current line =
        blockCommentGo (inner ++ 42 :: 47 :: rest2) (current + 1)
          (if c == 10 then line + 1 else line) by
      simp only [blockCommentGo, hpair, Bool.false_eq_true, if_false]]
    rw [ih _ _ h2]
    cases hc : c == 10 <;> simp [List.countP_cons, hc] <;> omega

/-- A byte list with no `*/` pair is consumed entirely by the
block-comment loop, newlines counted, with no error and no token. -/
theorem blockCommentGo_unterminated (inner : List Nat) (current line : Nat)
    (h : containsClosePair inner = false) :
    blockCommentGo inner current line =
      ([], current + inner.length, line + inner.countP (fun c => c == 10)) := by
  induction inner generalizing current line with
  | nil => simp [blockCommentGo]
  | cons c inner ih =>
    have hpair : (c == 42 && inner.headD 0 == 47) = false := by
      cases inner with
      | nil => simp
      | cons i0 inner2 =>
        simp only [containsClosePair, Bool.or_eq_false_iff] at h
        simpa using h.1
    have h2 : containsClosePair inner = false := by
      cases inner with
      | nil => simp [containsClosePair]
      | cons i0 inner2 =>
        simp only [containsClosePair, Bool.or_eq_false_iff] at h
        exact h.2
    rw [show blockCommentGo (c :: inner) current line =
        blockCommentGo inner (current + 1) (if c == 10 then line + 1 else line) by
      simp only [blockCommentGo, hpair, Bool.false_eq_true, if_false]]
    rw [ih _ _ h2]
    cases hc : c == 10 <;> simp [List.countP_cons, hc] <;> omega

/-- C9: the scanner skips C-style block comments.  First conjunct: on
input `/*` + body + `*/` + rest (the body containing no earlier `*/`),
`scan_token` produces no token and no error (`Ok(None)`), consumes
through the first `*/`, and increments the line counter once per newline
in the body.  Second conjunct: with no closing `*/` anywhere, the whole
remaining input is consumed, still with no token and no error. -/
theorem C9_block_comments_skipped :
    (∀ (inner rest2 : List Nat) (start line : Nat),
       containsClosePair (inner ++ [42]) = false →
       scan_token (47 :: 42 :: (inner ++ 42 :: 47 :: rest2)) start line =
         some ⟨.ok none, rest2, start + inner.length + 4,
               line + inner.countP (fun c => c == 10)⟩) ∧
    (∀ (inner : List Nat) (start line : Nat),
       containsClosePair inner = false →
       scan_token (47 :: 42 :: inner) start line =
         some ⟨.ok none, [], start + inner.length + 2,
               line + inner.countP (fun c => c == 10)⟩) := by
  constructor
  · intro inner rest2 start line h
    simp only [scan_token, List.headD_cons, List.drop_succ_cons, List.drop_zero]
    rw [blockCommentGo_closes rest2 inner (start + 1 + 1) line h]
    simp
    omega
  · intro inner start line h
    simp only [scan_token, List.headD_cons, List.drop_succ_cons, List.drop_zero]
    rw [blockCommentGo_unterminated inner (start + 1 + 1) line h]
    simp
    omega

/-- Witness for C9: scanning the bytes of `/* a\n */x` from position 0 on
line 1 yields no token and no error, leaves `x` (byte 120) unconsumed
with `current = 8`, and has counted the newline (`line` becomes 2);
scanning the unterminated `/*ab` silently consumes everything. -/
theorem C9_block_comments_witness :
    scan_token [47, 42, 32, 97, 10, 32, 42, 47, 120] 0 1 =
      some ⟨.ok none, [120], 8, 2⟩ ∧
    scan_token [47, 42, 97, 98] 0 1 = some ⟨.ok none, [], 4, 1⟩ := by
  constructor
  · exact (C9_block_comments_skipped.1 [32, 97, 10, 32] [120] 0 1 (by decide)).trans rfl
  · exact (C9_block_comments_skipped.2 [97, 98] 0 1 (by decide)).trans rfl

/-! ## Verification of the table under its representation invariant

The states the VM ever puts its `globals` table into satisfy a
representation invariant `TableWF` (established below for the operations
the VM performs); under it `get`/`set`/`delete` behave like a finite map.
The probe arithmetic `& (capacity - 1)` is reduced to `% capacity` via
the power-of-two capacity. -/

/-- Masking with `2 ^ m - 1` is reduction modulo `2 ^ m` — the probe
index arithmetic of `find_entry` (the `debug_assert!` in the source
records the power-of-two requirement). -/
theorem land_two_pow_sub_one (x m : Nat) : x &&& (2 ^ m - 1) = x % 2 ^ m := by
  apply Nat.eq_of_testBit_eq
  intro i
  simp [Nat.testBit_and, Nat.testBit_mod_two_pow, Nat.testBit_two_pow_sub_one, Bool.and_comm]

/-- A slot holding a key. -/
def Entry.isFullSlot (e : Entry) : Bool :=
  e.key.isSome

/-- A true-empty slot: no key and the value `Nil` (never written by a
deletion, which writes `Bool(true)`). -/
def Entry.isEmptySlot (e : Entry) : Bool :=
  e.key.isNone && e.value.isNilValue

/-- Number of probe steps from bucket `b` to slot `i` (cyclically). -/
def probeDist (cap b i : Nat) : Nat :=
  (i + cap - b) % cap

/-- The chain invariant: every slot on the probe path of a stored key,
strictly before the key's own slot, holds a key.  This is what the VM's
usage pattern maintains (`delete` is only ever applied to a key that was
inserted into a keyless slot the instant before), and it is exactly what
makes the early-stopping `find_entry` of this code behave like the
standard tombstone-skipping probe on those states. -/
def chainInv (entries : List Entry) (cap : Nat) : Prop :=
  ∀ (i : Nat) (k : LoxString) (v : Value), entries[i]? = some ⟨some k, v⟩ →
    ∀ d, d < probeDist cap (k.hash % cap) i →
      ∃ k2 v2, entries[(k.hash % cap + d) % cap]? = some ⟨some k2, v2⟩

/-- Each key occupies at most one slot. -/
def uniqInv (entries : List Entry) : Prop :=
  ∀ (i j : Nat) (k : LoxString) (v v2 : Value),
    entries[i]? = some ⟨some k, v⟩ → entries[j]? = some ⟨some k, v2⟩ → i = j

/-- The pair `(k, v)` is stored in some slot. -/
def hasPair (entries : List Entry) (k : LoxString) (v : Value) : Prop :=
  ∃ i : Nat, entries[i]? = some ⟨some k, v⟩

/-- Representation invariant of reachable tables. -/
structure TableWF (t : Table) : Prop where
  cap_pow : t.capacity = 0 ∨ ∃ m, 3 ≤ m ∧ t.capacity = 2 ^ m
  len_eq : t.entries.length = t.capacity
  count_eq : t.count = t.entries.countP (fun e => !e.isEmptySlot)
  load_le : t.count ≤ maxLoadThreshold t.capacity
  slots_ok : ∀ e ∈ t.entries, e.key.isSome = true ∨ e.value = Value.Nil ∨ e.value = Value.Bool true
  chain : chainInv t.entries t.capacity
  uniq : uniqInv t.entries

/-- The finite-map reading of the slot array (first slot storing the
key, if any). -/
def Table.lookup (t : Table) (k : LoxString) : Option Value :=
  (t.entries.find? (fun e => e.key == some k)).map Entry.value

/-- Replacing one slot changes `countP` by the difference of the two
slots' verdicts. -/
theorem countP_set (p : Entry → Bool) (l : List Entry) (i : Nat) (a e : Entry)
    (h : l[i]? = some e) :
    (l.set i a).countP p + (if p e then 1 else 0) =
      l.countP p + (if p a then 1 else 0) := by
  induction l generalizing i with
  | nil => simp at h
  | cons x xs ih =>
    cases i with
    | zero =>
      simp only [List.getElem?_cons_zero, Option.some.injEq] at h
      subst h
      simp only [List.set_cons_zero, List.countP_cons]
      cases hp : p x <;> cases hq : p a <;> simp [hp, hq]
    | succ n =>
      simp only [List.getElem?_cons_succ] at h
      simp only [List.set_cons_succ, List.countP_cons]
      have := ih n h
      omega

/-- Probe-path arithmetic: the bucket plus the probe distance reaches the
slot. -/
theorem probe_at_dist (cap b i : Nat) (hb : b < cap) (hi : i < cap) :
    (b + probeDist cap b i) % cap = i := by
  unfold probeDist
  rcases le_or_lt b i with hle | hlt
  · rw [show i + cap - b = (i - b) + cap by omega, Nat.add_mod_right,
      Nat.mod_eq_of_lt (show i - b < cap by omega), show b + (i - b) = i by omega,
      Nat.mod_eq_of_lt hi]
  · rw [Nat.mod_eq_of_lt (show i + cap - b < cap by omega),
      show b + (i + cap - b) = i + cap by omega, Nat.add_mod_right, Nat.mod_eq_of_lt hi]

/-- Probe-path arithmetic: the slot reached after `j < cap` steps is at
probe distance `j`. -/
theorem probeDist_probe (cap b j : Nat) (hb : b < cap) (hj : j < cap) :
    probeDist cap b ((b + j) % cap) = j := by
  unfold probeDist
  rcases Nat.lt_or_ge (b + j) cap with hlt | hge
  · rw [Nat.mod_eq_of_lt hlt, show b + j + cap - b = j + cap by omega,
      Nat.add_mod_right, Nat.mod_eq_of_lt hj]
  · rw [Nat.mod_eq_sub_mod hge, Nat.mod_eq_of_lt (show b + j - cap < cap by omega),
      show b + j - cap + cap - b = j + cap - cap by omega,
      show j + cap - cap = j by omega, Nat.mod_eq_of_lt hj]

/-- Advancing the probe index by one advances the probe step count. -/
theorem probe_succ (cap b j : Nat) : ((b + j) % cap + 1) % cap = (b + (j + 1)) % cap := by
  rw [Nat.mod_add_mod, Nat.add_assoc]

/-- The probe distance is below the capacity. -/
theorem probeDist_lt (cap b i : Nat) (hcap : 0 < cap) : probeDist cap b i < cap :=
  Nat.mod_lt _ hcap

/-- An index that yields a value is in range. -/
theorem lt_length_of_getElem? {l : List Entry} {i : Nat} {e : Entry}
    (h : l[i]? = some e) : i < l.length := by
  rw [List.getElem?_eq_some] at h
  exact h.1

/-- One unfolding step of the probe loop. -/
theorem findEntryGo_succ (entries : List Entry) (k : LoxString) (cap f idx : Nat) :
    findEntryGo entries k cap (f + 1) idx =
      match entries[idx]? with
      | none => none
      | some entry =>
        match entry.key with
        | some k2 =>
          if k2 = k then some idx
          else findEntryGo entries k cap f ((idx + 1) &&& (cap - 1))
        | none =>
          match entry.value with
          | .Nil => some idx
          | .Bool true => some idx
          | _ => findEntryGo entries k cap f idx := rfl

/-- Core probe lemma, found case: if slot `i` holds the searched key,
every earlier slot on its probe path holds a key, and no other slot holds
the searched key, then the probe loop stops at `i`. -/
theorem findEntryGo_found
    (entries : List Entry) (cap m : Nat) (k : LoxString) (i : Nat) (v : Value)
    (hcap : cap = 2 ^ m)
    (hi : entries[i]? = some ⟨some k, v⟩)
    (hilt : i < cap)
    (hchain : ∀ d, d < probeDist cap (k.hash % cap) i →
       ∃ k2 v2, entries[(k.hash % cap + d) % cap]? = some ⟨some k2, v2⟩)
    (hukey : ∀ (j : Nat) (v2 : Value), entries[j]? = some ⟨some k, v2⟩ → j = i) :
    ∀ (fuel j : Nat), j ≤ probeDist cap (k.hash % cap) i →
      probeDist cap (k.hash % cap) i - j < fuel →
      findEntryGo entries k cap fuel ((k.hash % cap + j) % cap) = some i := by
  have hcappos : 0 < cap := by rw [hcap]; exact Nat.pos_pow_of_pos m (by norm_num)
  have hb : k.hash % cap < cap := Nat.mod_lt _ hcappos
  have hmask : ∀ x : Nat, x &&& (cap - 1) = x % cap := by
    intro x; rw [hcap]; exact land_two_pow_sub_one x m
  intro fuel
  induction fuel with
  | zero => intro j hj hfuel; omega
  | succ f ih =>
    intro j hj hfuel
    by_cases hjD : j = probeDist cap (k.hash % cap) i
    · subst hjD
      rw [probe_at_dist cap _ i hb hilt, findEntryGo_succ, hi]
      dsimp only
      rw [if_pos rfl]
    · have hjlt : j < probeDist cap (k.hash % cap) i := lt_of_le_of_ne hj hjD
      obtain ⟨k2, v2, hk2⟩ := hchain j hjlt
      have hne : k2 ≠ k := by
        intro he
        rw [he] at hk2
        have heq := hukey _ _ hk2
        have hpd := probeDist_probe cap (k.hash % cap) j hb
          (lt_trans hjlt (probeDist_lt cap _ i hcappos))
        rw [heq] at hpd
        omega
      rw [findEntryGo_succ, hk2]
      dsimp only
      rw [if_neg hne, hmask, probe_succ]
      exact ih (j + 1) (by omega) (by omega)

/-- Core probe lemma, keyless case: if the slot at probe distance `D` is
keyless (with a legal value) and every earlier slot on the path holds a
key different from the searched one, the probe loop stops at that keyless
slot — tombstone (`Bool(true)`) and true-empty (`Nil`) alike. -/
theorem findEntryGo_keyless
    (entries : List Entry) (cap m : Nat) (k : LoxString) (D : Nat)
    (hcap : cap = 2 ^ m)
    (hD : D < cap)
    (hDslot : ∃ val, entries[(k.hash % cap + D) % cap]? = some ⟨none, val⟩ ∧
      (val = Value.Nil ∨ val = Value.Bool true))
    (hbefore : ∀ d, d < D →
      ∃ k2 v2, entries[(k.hash % cap + d) % cap]? = some ⟨some k2, v2⟩ ∧ k2 ≠ k) :
    ∀ (fuel j : Nat), j ≤ D → D - j < fuel →
      findEntryGo entries k cap fuel ((k.hash % cap + j) % cap) =
        some ((k.hash % cap + D) % cap) := by
  have hcappos : 0 < cap := by rw [hcap]; exact Nat.pos_pow_of_pos m (by norm_num)
  have hmask : ∀ x : Nat, x &&& (cap - 1) = x % cap := by
    intro x; rw [hcap]; exact land_two_pow_sub_one x m
  intro fuel
  induction fuel with
  | zero => intro j hj hfuel; omega
  | succ f ih =>
    intro j hj hfuel
    by_cases hjD : j = D
    · subst hjD
      obtain ⟨val, hv, hval⟩ := hDslot
      rcases hval with h1 | h1 <;> subst h1 <;> rw [findEntryGo_succ, hv]
    · have hjlt : j < D := lt_of_le_of_ne hj hjD
      obtain ⟨k2, v2, hk2, hne⟩ := hbefore j hjlt
      rw [findEntryGo_succ, hk2]
      dsimp only
      rw [if_neg hne, hmask, probe_succ]
      exact ih (j + 1) (by omega) (by omega)

/-- `find_entry` on a well-formed table locates a stored key's slot. -/
theorem find_entry_found (t : Table) (wf : TableWF t) (k : LoxString) (i : Nat)
    (v : Value) (hi : t.entries[i]? = some ⟨some k, v⟩) :
    t.find_entry k = some i := by
  obtain ⟨m, hm3, hcap⟩ : ∃ m, 3 ≤ m ∧ t.capacity = 2 ^ m := by
    rcases wf.cap_pow with h0 | h
    · exfalso
      have := lt_length_of_getElem? hi
      rw [wf.len_eq, h0] at this
      omega
    · exact h
  have hcappos : 0 < t.capacity := by rw [hcap]; exact Nat.pos_pow_of_pos m (by norm_num)
  have hb : k.hash % t.capacity < t.capacity := Nat.mod_lt _ hcappos
  have hilt : i < t.capacity := by
    have := lt_length_of_getElem? hi
    rwa [wf.len_eq] at this
  have h := findEntryGo_found t.entries t.capacity m k i v hcap hi hilt
    (wf.chain i k v hi) (fun j v2 hj => wf.uniq j i k v2 v hj hi)
    t.capacity 0 (Nat.zero_le _)
    (by have := probeDist_lt t.capacity (k.hash % t.capacity) i hcappos; omega)
  rw [Nat.add_zero, Nat.mod_eq_of_lt hb] at h
  unfold Table.find_entry
  rw [show k.hash &&& (t.capacity - 1) = k.hash % t.capacity by
    rw [hcap]; exact land_two_pow_sub_one k.hash m]
  exact h

/-- Is the slot at probe distance `d` from bucket `b` keyless? -/
def keylessAt (entries : List Entry) (cap b d : Nat) : Bool :=
  match entries[(b + d) % cap]? with
  | some e => e.key.isNone
  | none => false

/-- The probe loop, searching a key stored nowhere, stops at the first
keyless slot of the key's probe path (which exists when some slot is
keyless), every earlier slot being occupied by some other key.  Raw
version over an entry array, reused for `Table::find_entry` and for the
reinsertions of `adjust_capacity`. -/
theorem findEntryGo_first_keyless (entries : List Entry) (cap m : Nat) (k : LoxString)
    (hcap : cap = 2 ^ m) (hlen : entries.length = cap)
    (hslots : ∀ e ∈ entries, e.key.isSome = true ∨ e.value = Value.Nil ∨ e.value = Value.Bool true)
    (habs : ∀ (j : Nat) (v2 : Value), ¬ entries[j]? = some ⟨some k, v2⟩)
    (hempty : ∃ (i : Nat) (e : Entry), entries[i]? = some e ∧ e.key = none) :
    ∃ j, findEntryGo entries k cap cap (k.hash &&& (cap - 1)) = some j ∧ j < cap ∧
      (∃ val, entries[j]? = some ⟨none, val⟩ ∧
        (val = Value.Nil ∨ val = Value.Bool true)) ∧
      (∀ d, d < probeDist cap (k.hash % cap) j →
        ∃ k2 v2, entries[(k.hash % cap + d) % cap]? =
          some ⟨some k2, v2⟩ ∧ k2 ≠ k) := by
  have hcappos : 0 < cap := by rw [hcap]; exact Nat.pos_pow_of_pos m (by norm_num)
  have hb : k.hash % cap < cap := Nat.mod_lt _ hcappos
  obtain ⟨ie, e, hie, hkey⟩ := hempty
  have hielt : ie < cap := by
    have := lt_length_of_getElem? hie; rwa [hlen] at this
  have hwit : keylessAt entries cap (k.hash % cap)
      (probeDist cap (k.hash % cap) ie) = true := by
    unfold keylessAt
    rw [probe_at_dist cap (k.hash % cap) ie hb hielt, hie]
    simp [hkey]
  have hex : ∃ d, keylessAt entries cap (k.hash % cap) d = true := ⟨_, hwit⟩
  have hDle : Nat.find hex ≤ probeDist cap (k.hash % cap) ie :=
    Nat.find_min' hex hwit
  have hDlt : Nat.find hex < cap :=
    lt_of_le_of_lt hDle (probeDist_lt _ _ _ hcappos)
  have hDslot : ∃ val,
      entries[(k.hash % cap + Nat.find hex) % cap]? =
        some ⟨none, val⟩ ∧ (val = Value.Nil ∨ val = Value.Bool true) := by
    have hspec := Nat.find_spec hex
    unfold keylessAt at hspec
    cases he : entries[(k.hash % cap + Nat.find hex) % cap]? with
    | none => rw [he] at hspec; simp at hspec
    | some e2 =>
      rw [he] at hspec
      obtain ⟨ekey, eval⟩ := e2
      have hk2 : ekey = none := by simpa using hspec
      subst hk2
      have hmem : (⟨none, eval⟩ : Entry) ∈ entries := List.getElem?_mem he
      rcases hslots _ hmem with hs | hs | hs
      · simp at hs
      · exact ⟨eval, rfl, Or.inl hs⟩
      · exact ⟨eval, rfl, Or.inr hs⟩
  have hbefore : ∀ d, d < Nat.find hex →
      ∃ k2 v2, entries[(k.hash % cap + d) % cap]? =
        some ⟨some k2, v2⟩ ∧ k2 ≠ k := by
    intro d hd
    have hnot := Nat.find_min hex hd
    unfold keylessAt at hnot
    have hidx : (k.hash % cap + d) % cap < entries.length := by
      rw [hlen]; exact Nat.mod_lt _ hcappos
    cases he : entries[(k.hash % cap + d) % cap]? with
    | none =>
      rw [List.getElem?_eq_getElem hidx] at he
      exact absurd he (by simp)
    | some e2 =>
      rw [he] at hnot
      obtain ⟨ekey, eval⟩ := e2
      cases ekey with
      | none => simp at hnot
      | some k2 =>
        refine ⟨k2, eval, rfl, ?_⟩
        intro hkk
        rw [hkk] at he
        exact habs _ _ he
  have h := findEntryGo_keyless entries cap m k (Nat.find hex) hcap hDlt
    hDslot hbefore cap 0 (Nat.zero_le _) (by omega)
  rw [Nat.add_zero, Nat.mod_eq_of_lt hb] at h
  refine ⟨(k.hash % cap + Nat.find hex) % cap, ?_, Nat.mod_lt _ hcappos,
    hDslot, ?_⟩
  · rw [show k.hash &&& (cap - 1) = k.hash % cap by
      rw [hcap]; exact land_two_pow_sub_one k.hash m]
    exact h
  · intro d hd
    rw [probeDist_probe cap (k.hash % cap) (Nat.find hex) hb hDlt] at hd
    exact hbefore d hd

/-- `Table::find_entry` version of `findEntryGo_first_keyless`. -/
theorem find_entry_keyless (t : Table) (wf : TableWF t) (k : LoxString) (m : Nat)
    (hcap : t.capacity = 2 ^ m)
    (habs : ∀ (j : Nat) (v2 : Value), ¬ t.entries[j]? = some ⟨some k, v2⟩)
    (hempty : ∃ (i : Nat) (e : Entry), t.entries[i]? = some e ∧ e.key = none) :
    ∃ j, t.find_entry k = some j ∧ j < t.capacity ∧
      (∃ val, t.entries[j]? = some ⟨none, val⟩ ∧
        (val = Value.Nil ∨ val = Value.Bool true)) ∧
      (∀ d, d < probeDist t.capacity (k.hash % t.capacity) j →
        ∃ k2 v2, t.entries[(k.hash % t.capacity + d) % t.capacity]? =
          some ⟨some k2, v2⟩ ∧ k2 ≠ k) :=
  findEntryGo_first_keyless t.entries t.capacity m k hcap wf.len_eq wf.slots_ok
    habs hempty

/-- Under key-uniqueness, a stored pair determines `lookup`. -/
theorem lookup_eq_some_of_slot (t : Table) (hu : uniqInv t.entries)
    (k : LoxString) (v : Value) (i : Nat)
    (hi : t.entries[i]? = some ⟨some k, v⟩) : t.lookup k = some v := by
  have hmem : (⟨some k, v⟩ : Entry) ∈ t.entries := List.getElem?_mem hi
  have hsome : (t.entries.find? (fun e => e.key == some k)).isSome := by
    rw [List.find?_isSome]
    exact ⟨_, hmem, by simp⟩
  obtain ⟨e, he⟩ := Option.isSome_iff_exists.mp hsome
  have hpe := List.find?_some he
  have hemem : e ∈ t.entries := List.mem_of_find?_eq_some he
  obtain ⟨ekey, eval⟩ := e
  have hkeq : ekey = some k := by simpa using hpe
  subst hkeq
  obtain ⟨j, hj⟩ := List.mem_iff_getElem?.mp hemem
  have hji : j = i := hu j i k eval v hj hi
  rw [hji, hi] at hj
  have : eval = v := by symm; simpa using hj
  subst this
  unfold Table.lookup
  rw [he]
  rfl

/-- A key stored in no slot is absent from `lookup`. -/
theorem lookup_eq_none_of_absent (t : Table) (k : LoxString)
    (habs : ∀ (j : Nat) (v : Value), ¬ t.entries[j]? = some ⟨some k, v⟩) :
    t.lookup k = none := by
  unfold Table.lookup
  rw [List.find?_eq_none.mpr]
  · rfl
  · intro e hemem hpe
    obtain ⟨ekey, eval⟩ := e
    have hkeq : ekey = some k := by simpa using hpe
    subst hkeq
    obtain ⟨j, hj⟩ := List.mem_iff_getElem?.mp hemem
    exact habs j eval hj

/-- A well-formed table below capacity has a keyless slot. -/
theorem exists_keyless (t : Table) (wf : TableWF t) (hcappos : 0 < t.capacity) :
    ∃ (i : Nat) (e : Entry), t.entries[i]? = some e ∧ e.key = none := by
  by_contra hno
  push_neg at hno
  have hall : ∀ e ∈ t.entries, (fun e => !e.isEmptySlot) e = true := by
    intro e he
    obtain ⟨i, hi⟩ := List.mem_iff_getElem?.mp he
    have hne := hno i e hi
    obtain ⟨ekey, eval⟩ := e
    cases ekey with
    | none => simp at hne
    | some k2 => simp [Entry.isEmptySlot]
  have hlen := List.countP_eq_length.mpr hall
  have hcnt := wf.count_eq
  have hload := wf.load_le
  rw [wf.len_eq] at hlen
  unfold maxLoadThreshold at hload
  omega

/-- On a well-formed table, `get` computes the finite-map `lookup`:
stored keys are found (despite the early-stopping probe, thanks to the
chain invariant), absent keys read `None`. -/
theorem get_eq_lookup (t : Table) (wf : TableWF t) (k : LoxString) :
    t.get k = t.lookup k := by
  by_cases hc : t.count = 0
  · unfold Table.get
    rw [if_pos hc]
    symm
    apply lookup_eq_none_of_absent
    intro j v hj
    have h0 : t.entries.countP (fun e => !e.isEmptySlot) = 0 := by
      rw [← wf.count_eq]; exact hc
    have hmem := List.getElem?_mem hj
    have := (List.countP_eq_zero.mp h0) _ hmem
    simp [Entry.isEmptySlot, Value.isNilValue] at this
  · have hcappos : 0 < t.capacity := by
      rcases wf.cap_pow with h0 | ⟨m, _, hm⟩
      · exfalso
        have hload := wf.load_le
        rw [h0] at hload
        unfold maxLoadThreshold at hload
        omega
      · rw [hm]; exact Nat.pos_pow_of_pos m (by norm_num)
    obtain ⟨m, hm3, hmcap⟩ : ∃ m, 3 ≤ m ∧ t.capacity = 2 ^ m := by
      rcases wf.cap_pow with h0 | h
      · omega
      · exact h
    unfold Table.get
    rw [if_neg hc]
    by_cases hpresent : ∃ (i : Nat) (v : Value), t.entries[i]? = some ⟨some k, v⟩
    · obtain ⟨i, v, hi⟩ := hpresent
      rw [find_entry_found t wf k i v hi]
      dsimp only
      rw [hi, lookup_eq_some_of_slot t wf.uniq k v i hi]
      simp
    · push_neg at hpresent
      have habs : ∀ (j : Nat) (v : Value), ¬ t.entries[j]? = some ⟨some k, v⟩ :=
        fun j v h => hpresent j v h
      obtain ⟨j, hfind, hjlt, ⟨val, hslot, hval⟩, _⟩ :=
        find_entry_keyless t wf k m hmcap habs (exists_keyless t wf hcappos)
      rw [hfind]
      dsimp only
      rw [hslot, lookup_eq_none_of_absent t k habs]
      simp

/-- An array whose full slots do not fill it has a keyless slot. -/
theorem exists_keyless_of_countP_lt (entries : List Entry)
    (h : entries.countP Entry.isFullSlot < entries.length) :
    ∃ (i : Nat) (e : Entry), entries[i]? = some e ∧ e.key = none := by
  by_contra hno
  push_neg at hno
  have hall : ∀ e ∈ entries, Entry.isFullSlot e = true := by
    intro e he
    obtain ⟨i, hi⟩ := List.mem_iff_getElem?.mp he
    have hne := hno i e hi
    obtain ⟨ekey, eval⟩ := e
    cases ekey with
    | none => simp at hne
    | some k2 => simp [Entry.isFullSlot]
  rw [List.countP_eq_length.mpr hall] at h
  omega

/-- Writing a key/value pair into the first keyless slot of its probe
path preserves the table invariants, adds exactly that pair to the stored
pairs, increments the full-slot count, and increments the non-empty count
iff the overwritten slot was true-empty. -/
theorem insert_keyless_raw (entries : List Entry) (cap m : Nat) (k : LoxString) (v : Value)
    (hcap : cap = 2 ^ m) (hlen : entries.length = cap)
    (hchain : chainInv entries cap) (huniq : uniqInv entries)
    (hslots : ∀ e ∈ entries, e.key.isSome = true ∨ e.value = Value.Nil ∨ e.value = Value.Bool true)
    (habs : ∀ (j : Nat) (v2 : Value), ¬ entries[j]? = some ⟨some k, v2⟩)
    (hempty : ∃ (i : Nat) (e : Entry), entries[i]? = some e ∧ e.key = none) :
    ∃ (j : Nat) (val : Value),
      findEntryGo entries k cap cap (k.hash &&& (cap - 1)) = some j ∧
      j < cap ∧ entries[j]? = some ⟨none, val⟩ ∧
      (val = Value.Nil ∨ val = Value.Bool true) ∧
      chainInv (entries.set j ⟨some k, v⟩) cap ∧
      uniqInv (entries.set j ⟨some k, v⟩) ∧
      (∀ e ∈ entries.set j ⟨some k, v⟩,
        e.key.isSome = true ∨ e.value = Value.Nil ∨ e.value = Value.Bool true) ∧
      (∀ (k2 : LoxString) (v2 : Value),
        (∃ i : Nat, (entries.set j ⟨some k, v⟩)[i]? = some ⟨some k2, v2⟩) ↔
          ((k2 = k ∧ v2 = v) ∨ ∃ i : Nat, entries[i]? = some ⟨some k2, v2⟩)) ∧
      (entries.set j ⟨some k, v⟩).countP Entry.isFullSlot =
        entries.countP Entry.isFullSlot + 1 ∧
      (entries.set j ⟨some k, v⟩).countP (fun e => !e.isEmptySlot) =
        entries.countP (fun e => !e.isEmptySlot) +
          (if val.isNilValue then 1 else 0) := by
  have hcappos : 0 < cap := by rw [hcap]; exact Nat.pos_pow_of_pos m (by norm_num)
  have hb : k.hash % cap < cap := Nat.mod_lt _ hcappos
  obtain ⟨j, hfind, hjlt, ⟨val, hjslot, hval⟩, hbef⟩ :=
    findEntryGo_first_keyless entries cap m k hcap hlen hslots habs hempty
  have hjlen : j < entries.length := by rw [hlen]; exact hjlt
  have hsetj : (entries.set j ⟨some k, v⟩)[j]? = some ⟨some k, v⟩ :=
    List.getElem?_set_self hjlen
  have hsetne : ∀ i : Nat, i ≠ j → (entries.set j ⟨some k, v⟩)[i]? = entries[i]? := by
    intro i hi
    exact List.getElem?_set_ne (Ne.symm hi)
  refine ⟨j, val, hfind, hjlt, hjslot, hval, ?_, ?_, ?_, ?_, ?_, ?_⟩
  · -- chain invariant of the updated array
    intro i2 k2 v2 h2 d hd
    by_cases hij : i2 = j
    · subst hij
      rw [hsetj] at h2
      obtain ⟨hk, hv⟩ : k = k2 ∧ v = v2 := by simpa using h2
      subst hk
      obtain ⟨k3, v3, h3, _⟩ := hbef d hd
      have hdlt : d < cap := lt_trans hd (probeDist_lt _ _ _ hcappos)
      have hpj : (k.hash % cap + d) % cap ≠ i2 := by
        intro hpj
        have hpd := probeDist_probe cap (k.hash % cap) d hb hdlt
        rw [hpj] at hpd
        omega
      exact ⟨k3, v3, by rw [hsetne _ hpj]; exact h3⟩
    · rw [hsetne _ hij] at h2
      obtain ⟨k3, v3, h3⟩ := hchain i2 k2 v2 h2 d hd
      have hpj : (k2.hash % cap + d) % cap ≠ j := by
        intro hpj
        rw [hpj, hjslot] at h3
        simp at h3
      exact ⟨k3, v3, by rw [hsetne _ hpj]; exact h3⟩
  · -- key uniqueness of the updated array
    intro i1 i2 k2 v1 v2 h1 h2
    by_cases e1 : i1 = j <;> by_cases e2 : i2 = j
    · rw [e1, e2]
    · subst e1
      rw [hsetj] at h1
      obtain ⟨hk, hv⟩ : k = k2 ∧ v = v1 := by simpa using h1
      subst hk
      rw [hsetne _ e2] at h2
      exact absurd h2 (habs _ _)
    · subst e2
      rw [hsetj] at h2
      obtain ⟨hk, hv⟩ : k = k2 ∧ v = v2 := by simpa using h2
      subst hk
      rw [hsetne _ e1] at h1
      exact absurd h1 (habs _ _)
    · rw [hsetne _ e1] at h1
      rw [hsetne _ e2] at h2
      exact huniq i1 i2 k2 v1 v2 h1 h2
  · -- slot values stay legal
    intro e he
    obtain ⟨i, hi⟩ := List.mem_iff_getElem?.mp he
    by_cases hij : i = j
    · subst hij
      rw [hsetj] at hi
      obtain rfl : (⟨some k, v⟩ : Entry) = e := Option.some.inj hi
      left; rfl
    · rw [hsetne _ hij] at hi
      exact hslots e (List.getElem?_mem hi)
  · -- stored pairs: exactly the new pair is added
    intro k2 v2
    constructor
    · rintro ⟨i, hi⟩
      by_cases hij : i = j
      · subst hij
        rw [hsetj] at hi
        obtain ⟨hk, hv⟩ : k = k2 ∧ v = v2 := by simpa using hi
        exact Or.inl ⟨hk.symm, hv.symm⟩
      · rw [hsetne _ hij] at hi
        exact Or.inr ⟨i, hi⟩
    · rintro (⟨hk, hv⟩ | ⟨i, hi⟩)
      · subst hk; subst hv
        exact ⟨j, hsetj⟩
      · have hij : i ≠ j := by
          intro h
          rw [h, hjslot] at hi
          simp at hi
        exact ⟨i, by rw [hsetne _ hij]; exact hi⟩
  · -- full-slot count goes up by one
    have h := countP_set Entry.isFullSlot entries j ⟨some k, v⟩ ⟨none, val⟩ hjslot
    simp [Entry.isFullSlot] at h
    omega
  · -- non-empty count goes up iff a true-empty slot was consumed
    have h := countP_set (fun e => !e.isEmptySlot) entries j ⟨some k, v⟩ ⟨none, val⟩ hjslot
    rcases hval with h1 | h1 <;> subst h1 <;>
      simp [Entry.isEmptySlot, Value.isNilValue] at h ⊢ <;> omega

/-- A successful `lookup` exhibits a stored pair. -/
theorem pair_of_lookup_eq_some (t : Table) (k : LoxString) (v : Value)
    (h : t.lookup k = some v) : ∃ i : Nat, t.entries[i]? = some ⟨some k, v⟩ := by
  unfold Table.lookup at h
  cases he : t.entries.find? (fun e => e.key == some k) with
  | none => rw [he] at h; simp at h
  | some e =>
    rw [he] at h
    have hpe := List.find?_some he
    have hemem := List.mem_of_find?_eq_some he
    obtain ⟨ekey, eval⟩ := e
    have hkeq : ekey = some k := by simpa using hpe
    subst hkeq
    have hv : eval = v := by simpa using h
    subst hv
    exact List.mem_iff_getElem?.mp hemem

/-- Overwriting the value stored under a key preserves the invariants,
replaces exactly that key's pair, and changes no slot counts. -/
theorem overwrite_raw (entries : List Entry) (cap : Nat) (k : LoxString)
    (v w : Value) (i : Nat)
    (hchain : chainInv entries cap) (huniq : uniqInv entries)
    (hslots : ∀ e ∈ entries, e.key.isSome = true ∨ e.value = Value.Nil ∨ e.value = Value.Bool true)
    (hi : entries[i]? = some ⟨some k, w⟩) :
    chainInv (entries.set i ⟨some k, v⟩) cap ∧
    uniqInv (entries.set i ⟨some k, v⟩) ∧
    (∀ e ∈ entries.set i ⟨some k, v⟩,
      e.key.isSome = true ∨ e.value = Value.Nil ∨ e.value = Value.Bool true) ∧
    (∀ (k2 : LoxString) (v2 : Value),
      (∃ i2 : Nat, (entries.set i ⟨some k, v⟩)[i2]? = some ⟨some k2, v2⟩) ↔
        ((k2 = k ∧ v2 = v) ∨
          (¬ k2 = k ∧ ∃ i2 : Nat, entries[i2]? = some ⟨some k2, v2⟩))) ∧
    (entries.set i ⟨some k, v⟩).countP Entry.isFullSlot =
      entries.countP Entry.isFullSlot ∧
    (entries.set i ⟨some k, v⟩).countP (fun e => !e.isEmptySlot) =
      entries.countP (fun e => !e.isEmptySlot) := by
  have hilen : i < entries.length := lt_length_of_getElem? hi
  have hseteq : (entries.set i ⟨some k, v⟩)[i]? = some ⟨some k, v⟩ :=
    List.getElem?_set_self hilen
  have hsetne : ∀ i2 : Nat, i2 ≠ i →
      (entries.set i ⟨some k, v⟩)[i2]? = entries[i2]? := by
    intro i2 h2
    exact List.getElem?_set_ne (Ne.symm h2)
  refine ⟨?_, ?_, ?_, ?_, ?_, ?_⟩
  · -- chain invariant
    intro i2 k2 v2 h2 d hd
    by_cases hij : i2 = i
    · rw [hij, hseteq] at h2
      obtain ⟨hk, hv⟩ : k = k2 ∧ v = v2 := by simpa using h2
      subst hk
      rw [hij] at hd
      obtain ⟨k3, v3, h3⟩ := hchain i k w hi d hd
      by_cases hpi : (k.hash % cap + d) % cap = i
      · exact ⟨k, v, by rw [hpi]; exact hseteq⟩
      · exact ⟨k3, v3, by rw [hsetne _ hpi]; exact h3⟩
    · rw [hsetne _ hij] at h2
      obtain ⟨k3, v3, h3⟩ := hchain i2 k2 v2 h2 d hd
      by_cases hpi : (k2.hash % cap + d) % cap = i
      · exact ⟨k, v, by rw [hpi]; exact hseteq⟩
      · exact ⟨k3, v3, by rw [hsetne _ hpi]; exact h3⟩
  · -- uniqueness
    intro i1 i2 k2 v1 v2 h1 h2
    by_cases e1 : i1 = i <;> by_cases e2 : i2 = i
    · rw [e1, e2]
    · rw [e1, hseteq] at h1
      obtain ⟨hk, hv⟩ : k = k2 ∧ v = v1 := by simpa using h1
      subst hk
      rw [hsetne _ e2] at h2
      rw [e1]
      exact (huniq i2 i k v2 w h2 hi).symm ▸ rfl
    · rw [e2, hseteq] at h2
      obtain ⟨hk, hv⟩ : k = k2 ∧ v = v2 := by simpa using h2
      subst hk
      rw [hsetne _ e1] at h1
      rw [e2]
      exact huniq i1 i k v1 w h1 hi
    · rw [hsetne _ e1] at h1
      rw [hsetne _ e2] at h2
      exact huniq i1 i2 k2 v1 v2 h1 h2
  · -- slot values stay legal
    intro e he
    obtain ⟨i2, hi2⟩ := List.mem_iff_getElem?.mp he
    by_cases hij : i2 = i
    · rw [hij, hseteq] at hi2
      obtain rfl : (⟨some k, v⟩ : Entry) = e := Option.some.inj hi2
      left; rfl
    · rw [hsetne _ hij] at hi2
      exact hslots e (List.getElem?_mem hi2)
  · -- stored pairs
    intro k2 v2
    constructor
    · rintro ⟨i2, hi2⟩
      by_cases hij : i2 = i
      · rw [hij, hseteq] at hi2
        obtain ⟨hk, hv⟩ : k = k2 ∧ v = v2 := by simpa using hi2
        exact Or.inl ⟨hk.symm, hv.symm⟩
      · rw [hsetne _ hij] at hi2
        refine Or.inr ⟨?_, i2, hi2⟩
        intro hk2
        rw [hk2] at hi2
        exact hij (huniq i2 i k v2 w hi2 hi)
    · rintro (⟨hk, hv⟩ | ⟨hk2, i2, hi2⟩)
      · subst hk; subst hv
        exact ⟨i, hseteq⟩
      · have hij : i2 ≠ i := by
          intro h
          rw [h, hi] at hi2
          have : k2 = k := by
            have := Option.some.inj hi2
            injection this with h1 h2
            exact (Option.some.inj h1).symm
          exact hk2 this
        exact ⟨i2, by rw [hsetne _ hij]; exact hi2⟩
  · -- full-slot count unchanged
    have h := countP_set Entry.isFullSlot entries i ⟨some k, v⟩ ⟨some k, w⟩ hi
    simp [Entry.isFullSlot] at h
    omega
  · -- non-empty count unchanged
    have h := countP_set (fun e => !e.isEmptySlot) entries i ⟨some k, v⟩ ⟨some k, w⟩ hi
    simp [Entry.isEmptySlot] at h ⊢
    omega

/-- The reinsertion loop of `adjust_capacity` (table.rs lines 157-171)
as a standalone function; `Table.adjust_capacity` is definitionally this
fold (see `adjust_capacity_eq`). -/
def rehashFold (ncap : Nat) (olds : List Entry) (acc : List Entry × Nat) :
    List Entry × Nat :=
  olds.foldl (fun acc e =>
    match e.key with
    | some k => (rehashInsert acc.1 ncap k e.value, acc.2 + 1)
    | none => acc) acc

/-- `adjust_capacity` rebuilds the table by folding the old slot array
over a fresh all-empty array. -/
theorem adjust_capacity_eq (t : Table) (ncap : Nat) :
    t.adjust_capacity ncap =
      { count := (rehashFold ncap t.entries (List.replicate ncap ⟨none, Value.Nil⟩, 0)).2,
        capacity := ncap,
        entries := (rehashFold ncap t.entries (List.replicate ncap ⟨none, Value.Nil⟩, 0)).1 } :=
  rfl

/-- Correctness of the reinsertion fold: starting from a tombstone-free
well-formed accumulator and feeding it old slots with pairwise-distinct
fresh keys (with room to spare), the fold preserves the invariants,
counts one insertion per full old slot, and stores exactly the
accumulator's pairs plus the full old slots. -/
theorem rehash_fold (ncap m : Nat) (hncap : ncap = 2 ^ m) :
    ∀ (olds es : List Entry) (cnt : Nat),
    es.length = ncap →
    chainInv es ncap →
    uniqInv es →
    (∀ e ∈ es, e.key.isSome = true ∨ e.value = Value.Nil) →
    cnt = es.countP Entry.isFullSlot →
    olds.Pairwise (fun e1 e2 => ∀ k : LoxString, e1.key = some k → e2.key ≠ some k) →
    (∀ (k : LoxString) (v : Value), (⟨some k, v⟩ : Entry) ∈ olds →
       ∀ (i : Nat) (v2 : Value), ¬ es[i]? = some ⟨some k, v2⟩) →
    es.countP Entry.isFullSlot + olds.countP Entry.isFullSlot < ncap →
    ((rehashFold ncap olds (es, cnt)).1.length = ncap ∧
     chainInv (rehashFold ncap olds (es, cnt)).1 ncap ∧
     uniqInv (rehashFold ncap olds (es, cnt)).1 ∧
     (∀ e ∈ (rehashFold ncap olds (es, cnt)).1,
       e.key.isSome = true ∨ e.value = Value.Nil) ∧
     (rehashFold ncap olds (es, cnt)).2 =
       (rehashFold ncap olds (es, cnt)).1.countP Entry.isFullSlot ∧
     (rehashFold ncap olds (es, cnt)).1.countP Entry.isFullSlot =
       es.countP Entry.isFullSlot + olds.countP Entry.isFullSlot ∧
     (∀ (k : LoxString) (v : Value),
       (∃ i : Nat, (rehashFold ncap olds (es, cnt)).1[i]? = some ⟨some k, v⟩) ↔
         ((∃ i : Nat, es[i]? = some ⟨some k, v⟩) ∨ (⟨some k, v⟩ : Entry) ∈ olds))) := by
  intro olds
  induction olds with
  | nil =>
    intro es cnt hlen hchain huniq hslots hcnt hpw hfresh hroom
    refine ⟨hlen, hchain, huniq, hslots, hcnt, by simp [rehashFold], ?_⟩
    intro k v
    simp [rehashFold]
  | cons e olds ih =>
    intro es cnt hlen hchain huniq hslots hcnt hpw hfresh hroom
    obtain ⟨ekey, eval⟩ := e
    rw [List.pairwise_cons] at hpw
    obtain ⟨hpwhead, hpwtail⟩ := hpw
    cases ekey with
    | none =>
      have hstep : rehashFold ncap (⟨none, eval⟩ :: olds) (es, cnt) =
          rehashFold ncap olds (es, cnt) := rfl
      rw [hstep]
      have hcountold : (⟨none, eval⟩ :: olds).countP Entry.isFullSlot =
          olds.countP Entry.isFullSlot := by
        simp [List.countP_cons, Entry.isFullSlot]
      have hres := ih es cnt hlen hchain huniq hslots hcnt hpwtail
        (fun k v hmem => hfresh k v (List.mem_cons_of_mem _ hmem))
        (by rw [hcountold] at hroom; exact hroom)
      refine ⟨hres.1, hres.2.1, hres.2.2.1, hres.2.2.2.1, hres.2.2.2.2.1, ?_, ?_⟩
      · rw [hres.2.2.2.2.2.1, hcountold]
      · intro k v
        rw [hres.2.2.2.2.2.2 k v]
        constructor
        · rintro (h | h)
          · exact Or.inl h
          · exact Or.inr (List.mem_cons_of_mem _ h)
        · rintro (h | h)
          · exact Or.inl h
          · rcases List.mem_cons.mp h with h1 | h1
            · simp at h1
            · exact Or.inr h1
    | some k0 =>
      have hcountcons : (⟨some k0, eval⟩ :: olds).countP Entry.isFullSlot =
          olds.countP Entry.isFullSlot + 1 := by
        simp [List.countP_cons, Entry.isFullSlot]
      have hroomes : es.countP Entry.isFullSlot < ncap := by omega
      have hempty := exists_keyless_of_countP_lt es (by rw [hlen]; exact hroomes)
      have hslots3 : ∀ e2 ∈ es,
          e2.key.isSome = true ∨ e2.value = Value.Nil ∨ e2.value = Value.Bool true := by
        intro e2 he2
        rcases hslots e2 he2 with h | h
        · exact Or.inl h
        · exact Or.inr (Or.inl h)
      have habs : ∀ (j : Nat) (v2 : Value), ¬ es[j]? = some ⟨some k0, v2⟩ :=
        fun j v2 => hfresh k0 eval (List.mem_cons_self _ _) j v2
      obtain ⟨j, val, hfind, hjlt, hjslot, hval, hchain2, huniq2, hslots2x, hmem2,
        hcfull2, hcne2⟩ :=
        insert_keyless_raw es ncap m k0 eval hncap hlen hchain huniq hslots3 habs hempty
      have hjlen : j < es.length := by rw [hlen]; exact hjlt
      have hri : rehashInsert es ncap k0 eval = es.set j ⟨some k0, eval⟩ := by
        unfold rehashInsert
        rw [hfind]
      have hstep : rehashFold ncap (⟨some k0, eval⟩ :: olds) (es, cnt) =
          rehashFold ncap olds (es.set j ⟨some k0, eval⟩, cnt + 1) := by
        show rehashFold ncap olds (rehashInsert es ncap k0 eval, cnt + 1) =
          rehashFold ncap olds (es.set j ⟨some k0, eval⟩, cnt + 1)
        rw [hri]
      rw [hstep]
      have hlen2 : (es.set j ⟨some k0, eval⟩).length = ncap := by
        rw [List.length_set]; exact hlen
      have hslots2 : ∀ e2 ∈ es.set j ⟨some k0, eval⟩,
          e2.key.isSome = true ∨ e2.value = Value.Nil := by
        intro e2 he2
        obtain ⟨i, hi⟩ := List.mem_iff_getElem?.mp he2
        by_cases hij : i = j
        · rw [hij, List.getElem?_set_self hjlen] at hi
          obtain rfl : (⟨some k0, eval⟩ : Entry) = e2 := Option.some.inj hi
          exact Or.inl rfl
        · rw [List.getElem?_set_ne (Ne.symm hij)] at hi
          exact hslots e2 (List.getElem?_mem hi)
      have hcnt2 : cnt + 1 = (es.set j ⟨some k0, eval⟩).countP Entry.isFullSlot := by
        rw [hcfull2, ← hcnt]
      have hfresh2 : ∀ (k : LoxString) (v : Value), (⟨some k, v⟩ : Entry) ∈ olds →
          ∀ (i : Nat) (v2 : Value),
            ¬ (es.set j ⟨some k0, eval⟩)[i]? = some ⟨some k, v2⟩ := by
        intro k v hmem i v2 hi
        rcases (hmem2 k v2).mp ⟨i, hi⟩ with ⟨hk, hv⟩ | ⟨i2, hi2⟩
        · subst hk
          exact (hpwhead _ hmem k rfl) rfl
        · exact hfresh k v (List.mem_cons_of_mem _ hmem) i2 v2 hi2
      have hroom2 : (es.set j ⟨some k0, eval⟩).countP Entry.isFullSlot +
          olds.countP Entry.isFullSlot < ncap := by
        rw [hcfull2]
        omega
      have hres := ih (es.set j ⟨some k0, eval⟩) (cnt + 1) hlen2 hchain2 huniq2
        hslots2 hcnt2 hpwtail hfresh2 hroom2
      refine ⟨hres.1, hres.2.1, hres.2.2.1, hres.2.2.2.1, hres.2.2.2.2.1, ?_, ?_⟩
      · rw [hres.2.2.2.2.2.1, hcfull2]
        omega
      · intro k v
        rw [hres.2.2.2.2.2.2 k v]
        constructor
        · rintro (h | h)
          · rcases (hmem2 k v).mp h with ⟨hk, hv⟩ | h2
            · subst hk; subst hv
              exact Or.inr (List.mem_cons_self _ _)
            · exact Or.inl h2
          · exact Or.inr (List.mem_cons_of_mem _ h)
        · rintro (h | h)
          · exact Or.inl ((hmem2 k v).mpr (Or.inr h))
          · rcases List.mem_cons.mp h with h1 | h1
            · obtain ⟨hk, hv⟩ : k = k0 ∧ v = eval := by simpa using h1
              subst hk; subst hv
              exact Or.inl ((hmem2 k v).mpr (Or.inl ⟨rfl, rfl⟩))
            · exact Or.inr h1

/-- `adjust_capacity` to a power-of-two capacity with room for the full
entries preserves well-formedness and the stored map, recounts exactly
the full slots, and leaves no tombstone behind. -/
theorem adjust_capacity_spec (t : Table) (wf : TableWF t) (m : Nat) (hm3 : 3 ≤ m)
    (hroom : t.entries.countP Entry.isFullSlot ≤ maxLoadThreshold (2 ^ m)) :
    TableWF (t.adjust_capacity (2 ^ m)) ∧
    (t.adjust_capacity (2 ^ m)).capacity = 2 ^ m ∧
    (t.adjust_capacity (2 ^ m)).count = t.entries.countP Entry.isFullSlot ∧
    (∀ e ∈ (t.adjust_capacity (2 ^ m)).entries,
      e.key.isSome = true ∨ e.value = Value.Nil) ∧
    (∀ k2 : LoxString, (t.adjust_capacity (2 ^ m)).lookup k2 = t.lookup k2) := by
  have hpos : 0 < 2 ^ m := Nat.pos_pow_of_pos m (by norm_num)
  have hinitlen : (List.replicate (2 ^ m) (⟨none, Value.Nil⟩ : Entry)).length = 2 ^ m :=
    List.length_replicate _ _
  have hinitpair : ∀ (i : Nat) (k : LoxString) (v : Value),
      ¬ (List.replicate (2 ^ m) (⟨none, Value.Nil⟩ : Entry))[i]? = some ⟨some k, v⟩ := by
    intro i k v hi
    have hmem := List.getElem?_mem hi
    have := List.eq_of_mem_replicate hmem
    simp at this
  have hinitchain : chainInv (List.replicate (2 ^ m) ⟨none, Value.Nil⟩) (2 ^ m) := by
    intro i k v hi
    exact absurd hi (hinitpair i k v)
  have hinituniq : uniqInv (List.replicate (2 ^ m) ⟨none, Value.Nil⟩) := by
    intro i j k v v2 hi
    exact absurd hi (hinitpair i k v)
  have hinitslots : ∀ e ∈ (List.replicate (2 ^ m) (⟨none, Value.Nil⟩ : Entry)),
      e.key.isSome = true ∨ e.value = Value.Nil := by
    intro e he
    rw [List.eq_of_mem_replicate he]
    exact Or.inr rfl
  have hinitcount : (List.replicate (2 ^ m) (⟨none, Value.Nil⟩ : Entry)).countP
      Entry.isFullSlot = 0 := by
    rw [List.countP_eq_zero]
    intro e he
    rw [List.eq_of_mem_replicate he]
    simp [Entry.isFullSlot]
  have hpw : t.entries.Pairwise
      (fun e1 e2 => ∀ k : LoxString, e1.key = some k → e2.key ≠ some k) := by
    rw [List.pairwise_iff_getElem]
    intro i j hi hj hij k h1 h2
    cases hx1 : t.entries[i] with
    | mk a1 b1 =>
      cases hx2 : t.entries[j] with
      | mk a2 b2 =>
        rw [hx1] at h1
        rw [hx2] at h2
        dsimp at h1 h2
        have g1 : t.entries[i]? = some ⟨some k, b1⟩ := by
          rw [List.getElem?_eq_getElem hi, hx1, h1]
        have g2 : t.entries[j]? = some ⟨some k, b2⟩ := by
          rw [List.getElem?_eq_getElem hj, hx2, h2]
        have := wf.uniq i j k b1 b2 g1 g2
        omega
  have hfoldroom : (List.replicate (2 ^ m) (⟨none, Value.Nil⟩ : Entry)).countP
      Entry.isFullSlot + t.entries.countP Entry.isFullSlot < 2 ^ m := by
    rw [hinitcount]
    unfold maxLoadThreshold at hroom
    omega
  have hres := rehash_fold (2 ^ m) m rfl t.entries
    (List.replicate (2 ^ m) ⟨none, Value.Nil⟩) 0 hinitlen hinitchain hinituniq
    hinitslots hinitcount.symm hpw
    (fun k v _ i v2 hi => hinitpair i k v2 hi) hfoldroom
  obtain ⟨hlen2, hchain2, huniq2, hslots2, hcnt2, hcount2, hmem2⟩ := hres
  rw [hinitcount, Nat.zero_add] at hcount2
  have hmem2s : ∀ (k : LoxString) (v : Value),
      (∃ i : Nat, (rehashFold (2 ^ m) t.entries
        (List.replicate (2 ^ m) ⟨none, Value.Nil⟩, 0)).1[i]? = some ⟨some k, v⟩) ↔
        (⟨some k, v⟩ : Entry) ∈ t.entries := by
    intro k v
    rw [hmem2 k v]
    constructor
    · rintro (⟨i, hi⟩ | h)
      · exact absurd hi (hinitpair i k v)
      · exact h
    · intro h
      exact Or.inr h
  rw [adjust_capacity_eq]
  have hslots3 : ∀ e ∈ (rehashFold (2 ^ m) t.entries
      (List.replicate (2 ^ m) ⟨none, Value.Nil⟩, 0)).1,
      e.key.isSome = true ∨ e.value = Value.Nil ∨ e.value = Value.Bool true := by
    intro e he
    rcases hslots2 e he with h | h
    · exact Or.inl h
    · exact Or.inr (Or.inl h)
  refine ⟨?_, rfl, ?_, hslots2, ?_⟩
  · refine ⟨Or.inr ⟨m, hm3, rfl⟩, hlen2, ?_, ?_, hslots3, hchain2, huniq2⟩
    · -- count = non-empty slots (no tombstones, so non-empty = full)
      rw [hcnt2]
      dsimp only
      refine (List.countP_congr ?_).symm
      intro e he
      rcases hslots2 e he with h | h
      · obtain ⟨ekey, eval⟩ := e
        cases ekey with
        | none => simp at h
        | some k2 => simp [Entry.isEmptySlot, Entry.isFullSlot]
      · obtain ⟨ekey, eval⟩ := e
        cases ekey with
        | none =>
          have hev : eval = Value.Nil := h
          subst hev
          simp [Entry.isEmptySlot, Entry.isFullSlot, Value.isNilValue]
        | some k2 => simp [Entry.isEmptySlot, Entry.isFullSlot]
    · -- load
      dsimp only
      rw [hcnt2, hcount2]
      exact hroom
  · dsimp only
    rw [hcnt2, hcount2]
  · -- lookup preservation
    intro k2
    cases hl : t.lookup k2 with
    | some v =>
      obtain ⟨i, hi⟩ := pair_of_lookup_eq_some t k2 v hl
      have hmem : (⟨some k2, v⟩ : Entry) ∈ t.entries := List.getElem?_mem hi
      obtain ⟨i2, hi2⟩ := (hmem2s k2 v).mpr hmem
      exact lookup_eq_some_of_slot _ huniq2 k2 v i2 hi2
    | none =>
      apply lookup_eq_none_of_absent
      intro j v hj
      obtain ⟨i3, hi3⟩ := List.mem_iff_getElem?.mp ((hmem2s k2 v).mp ⟨j, hj⟩)
      have := lookup_eq_some_of_slot t wf.uniq k2 v i3 hi3
      rw [hl] at this
      exact Option.noConfusion this

/-- The growth step at the top of `Table::set` (table.rs lines 46-49). -/
def Table.grown (t : Table) : Table :=
  if t.count + 1 > maxLoadThreshold t.capacity then
    t.adjust_capacity (if t.capacity = 0 then 8 else t.capacity * 2)
  else t

/-- `Table::set` is the growth step followed by probe-and-write. -/
theorem set_eq_grown (t : Table) (k : LoxString) (v : Value) :
    t.set k v =
      match (t.grown).find_entry k with
      | none => (t.grown, false)
      | some i =>
        match (t.grown).entries[i]? with
        | none => (t.grown, false)
        | some entry =>
          ({ count := if entry.key.isNone && entry.value.isNilValue
                then (t.grown).count + 1 else (t.grown).count,
             capacity := (t.grown).capacity,
             entries := (t.grown).entries.set i ⟨some k, v⟩ }, entry.key.isNone) :=
  rfl

/-- Full slots are in particular non-empty slots. -/
theorem countP_full_le_nonEmpty (l : List Entry) :
    l.countP Entry.isFullSlot ≤ l.countP (fun e => !e.isEmptySlot) := by
  apply List.countP_mono_left
  intro e _ h
  obtain ⟨ekey, eval⟩ := e
  cases ekey with
  | none => simp [Entry.isFullSlot] at h
  | some k2 => simp [Entry.isEmptySlot]

/-- After the growth step the table is well formed, has room for one
more entry, a power-of-two capacity (at least 8), and the same stored
map. -/
theorem grown_spec (t : Table) (wf : TableWF t) :
    TableWF t.grown ∧ t.grown.count + 1 ≤ maxLoadThreshold t.grown.capacity ∧
    (∃ m, 3 ≤ m ∧ t.grown.capacity = 2 ^ m) ∧
    (∀ k2 : LoxString, t.grown.lookup k2 = t.lookup k2) := by
  unfold Table.grown
  by_cases hg : t.count + 1 > maxLoadThreshold t.capacity
  · rw [if_pos hg]
    rcases wf.cap_pow with h0 | ⟨mm, hmm3, hmcap⟩
    · -- capacity 0: grow to 8 = 2 ^ 3
      have hcount0 : t.count = 0 := by
        have := wf.load_le
        rw [h0] at this
        unfold maxLoadThreshold at this
        omega
      have harg : (if t.capacity = 0 then 8 else t.capacity * 2) = 2 ^ 3 := by
        rw [h0]; rfl
      rw [harg]
      have hroom : t.entries.countP Entry.isFullSlot ≤ maxLoadThreshold (2 ^ 3) := by
        have h1 := countP_full_le_nonEmpty t.entries
        have h2 := wf.count_eq
        unfold maxLoadThreshold
        omega
      obtain ⟨hwf2, hcap2, hcnt2, _, hlook2⟩ := adjust_capacity_spec t wf 3 (by omega) hroom
      refine ⟨hwf2, ?_, ⟨3, by omega, hcap2⟩, hlook2⟩
      rw [hcnt2, hcap2]
      have h1 := countP_full_le_nonEmpty t.entries
      have h2 := wf.count_eq
      unfold maxLoadThreshold
      omega
    · -- capacity 2 ^ mm: grow to 2 ^ (mm + 1)
      have hne : t.capacity ≠ 0 := by
        rw [hmcap]
        have := Nat.pos_pow_of_pos mm (show 0 < 2 by norm_num)
        omega
      have harg : (if t.capacity = 0 then 8 else t.capacity * 2) = 2 ^ (mm + 1) := by
        rw [if_neg hne, hmcap, pow_succ]
      rw [harg]
      have h8 : 8 ≤ 2 ^ mm := by
        calc (8 : Nat) = 2 ^ 3 := rfl
        _ ≤ 2 ^ mm := Nat.pow_le_pow_right (by norm_num) hmm3
      have hpow : (2 : Nat) ^ (mm + 1) = 2 ^ mm * 2 := pow_succ 2 mm
      have hcountle : t.entries.countP Entry.isFullSlot ≤ t.count := by
        have h1 := countP_full_le_nonEmpty t.entries
        have h2 := wf.count_eq
        omega
      have hloadold := wf.load_le
      rw [hmcap] at hloadold
      unfold maxLoadThreshold at hloadold
      have hroom : t.entries.countP Entry.isFullSlot ≤ maxLoadThreshold (2 ^ (mm + 1)) := by
        unfold maxLoadThreshold
        rw [hpow]
        omega
      obtain ⟨hwf2, hcap2, hcnt2, _, hlook2⟩ :=
        adjust_capacity_spec t wf (mm + 1) (by omega) hroom
      refine ⟨hwf2, ?_, ⟨mm + 1, by omega, hcap2⟩, hlook2⟩
      rw [hcnt2, hcap2]
      unfold maxLoadThreshold
      rw [hpow]
      omega
  · rw [if_neg hg]
    push_neg at hg
    have hcapne : t.capacity ≠ 0 := by
      intro h0
      rw [h0] at hg
      unfold maxLoadThreshold at hg
      omega
    rcases wf.cap_pow with h0 | hm
    · exact absurd h0 hcapne
    · exact ⟨wf, hg, hm, fun _ => rfl⟩

/-- Functional correctness of `Table::set` on well-formed tables: the
result is well formed, the returned flag is `true` exactly when the key
was not previously present, and the stored map gains/updates exactly the
written pair. -/
theorem set_spec_full (t : Table) (wf : TableWF t) (k : LoxString) (v : Value) :
    TableWF (t.set k v).1 ∧
    ((t.set k v).2 = true ↔ t.lookup k = none) ∧
    (∀ k2 : LoxString, (t.set k v).1.lookup k2 =
      if k2 = k then some v else t.lookup k2) := by
  obtain ⟨wfp, hload, ⟨mm, hmm3, hmcap⟩, hlook⟩ := grown_spec t wf
  have hcappos : 0 < t.grown.capacity := by
    rw [hmcap]; exact Nat.pos_pow_of_pos mm (by norm_num)
  rw [set_eq_grown]
  by_cases hpres : ∃ (i : Nat) (w : Value), t.grown.entries[i]? = some ⟨some k, w⟩
  · -- the key is already present: overwrite, return false
    obtain ⟨i, w, hi⟩ := hpres
    rw [find_entry_found t.grown wfp k i w hi]
    dsimp only
    rw [hi]
    show TableWF ({ count := t.grown.count,
                    capacity := t.grown.capacity,
                    entries := t.grown.entries.set i ⟨some k, v⟩ } : Table) ∧
      ((false : Bool) = true ↔ t.lookup k = none) ∧ _
    obtain ⟨hch2, hun2, hsl2, hmm2, hcf2, hcn2⟩ :=
      overwrite_raw t.grown.entries t.grown.capacity k v w i wfp.chain wfp.uniq
        wfp.slots_ok hi
    have hilen : i < t.grown.entries.length := lt_length_of_getElem? hi
    have hlookt : t.lookup k = some w := by
      rw [← hlook k]
      exact lookup_eq_some_of_slot t.grown wfp.uniq k w i hi
    refine ⟨?_, ?_, ?_⟩
    · refine ⟨Or.inr ⟨mm, hmm3, hmcap⟩, ?_, ?_, wfp.load_le, hsl2, hch2, hun2⟩
      · dsimp only
        rw [List.length_set]
        exact wfp.len_eq
      · dsimp only
        rw [hcn2]
        exact wfp.count_eq
    · simp [hlookt]
    · intro k2
      by_cases hk2 : k2 = k
      · subst hk2
        rw [if_pos rfl]
        exact lookup_eq_some_of_slot _ hun2 k2 v i (List.getElem?_set_self hilen)
      · rw [if_neg hk2, ← hlook k2]
        cases hl2 : t.grown.lookup k2 with
        | some u =>
          obtain ⟨i3, hi3⟩ := pair_of_lookup_eq_some t.grown k2 u hl2
          obtain ⟨i4, hi4⟩ := (hmm2 k2 u).mpr (Or.inr ⟨hk2, i3, hi3⟩)
          exact lookup_eq_some_of_slot _ hun2 k2 u i4 hi4
        | none =>
          apply lookup_eq_none_of_absent
          intro j u hj
          rcases (hmm2 k2 u).mp ⟨j, hj⟩ with ⟨hk, _⟩ | ⟨_, i3, hi3⟩
          · exact hk2 hk
          · have := lookup_eq_some_of_slot t.grown wfp.uniq k2 u i3 hi3
            rw [hl2] at this
            exact Option.noConfusion this
  · -- the key is absent: insert into the first keyless slot, return true
    push_neg at hpres
    have habs : ∀ (j : Nat) (v2 : Value), ¬ t.grown.entries[j]? = some ⟨some k, v2⟩ :=
      fun j v2 h => hpres j v2 h
    have hempty := exists_keyless t.grown wfp hcappos
    obtain ⟨j, val, hfind, hjlt, hjslot, hval, ich, iun, isl, imem, icf, icn⟩ :=
      insert_keyless_raw t.grown.entries t.grown.capacity mm k v hmcap wfp.len_eq
        wfp.chain wfp.uniq wfp.slots_ok habs hempty
    have hfind2 : t.grown.find_entry k = some j := hfind
    rw [hfind2]
    dsimp only
    rw [hjslot]
    show TableWF ({ count := if val.isNilValue then t.grown.count + 1 else t.grown.count,
                    capacity := t.grown.capacity,
                    entries := t.grown.entries.set j ⟨some k, v⟩ } : Table) ∧
      ((true : Bool) = true ↔ t.lookup k = none) ∧ _
    have hjlen : j < t.grown.entries.length := by rw [wfp.len_eq]; exact hjlt
    have hlookt : t.lookup k = none := by
      rw [← hlook k]
      exact lookup_eq_none_of_absent _ _ habs
    refine ⟨?_, ?_, ?_⟩
    · refine ⟨Or.inr ⟨mm, hmm3, hmcap⟩, ?_, ?_, ?_, isl, ich, iun⟩
      · dsimp only
        rw [List.length_set]
        exact wfp.len_eq
      · dsimp only
        rw [icn, ← wfp.count_eq]
        cases hnv : val.isNilValue <;> simp [hnv]
      · dsimp only
        cases hnv : val.isNilValue <;> simp [hnv] <;> omega
    · simp [hlookt]
    · intro k2
      by_cases hk2 : k2 = k
      · subst hk2
        rw [if_pos rfl]
        exact lookup_eq_some_of_slot _ iun k2 v j (List.getElem?_set_self hjlen)
      · rw [if_neg hk2, ← hlook k2]
        cases hl2 : t.grown.lookup k2 with
        | some u =>
          obtain ⟨i3, hi3⟩ := pair_of_lookup_eq_some t.grown k2 u hl2
          obtain ⟨i4, hi4⟩ := (imem k2 u).mpr (Or.inr ⟨i3, hi3⟩)
          exact lookup_eq_some_of_slot _ iun k2 u i4 hi4
        | none =>
          apply lookup_eq_none_of_absent
          intro j2 u hj2
          rcases (imem k2 u).mp ⟨j2, hj2⟩ with ⟨hk, _⟩ | ⟨i3, hi3⟩
          · exact hk2 hk
          · have := lookup_eq_some_of_slot t.grown wfp.uniq k2 u i3 hi3
            rw [hl2] at this
            exact Option.noConfusion this

/-- The `SetGlobal` error path: inserting an absent key and deleting it
again (what the VM does when `set` reports a new key) leaves a
well-formed table storing exactly the original map — the freshly
inserted key sat in the first keyless slot of its probe path, so the
tombstone it leaves behind is on no stored key's chain. -/
theorem set_delete_roundtrip (t : Table) (wf : TableWF t) (k : LoxString) (v : Value)
    (habs0 : t.lookup k = none) :
    TableWF ((t.set k v).1.delete k).1 ∧
    ((t.set k v).1.delete k).2 = true ∧
    (∀ k2 : LoxString, ((t.set k v).1.delete k).1.lookup k2 = t.lookup k2) := by
  obtain ⟨wfp, hload, ⟨mm, hmm3, hmcap⟩, hlook⟩ := grown_spec t wf
  have hcappos : 0 < t.grown.capacity := by
    rw [hmcap]; exact Nat.pos_pow_of_pos mm (by norm_num)
  have habs : ∀ (j : Nat) (v2 : Value), ¬ t.grown.entries[j]? = some ⟨some k, v2⟩ := by
    intro j v2 hj
    have := lookup_eq_some_of_slot t.grown wfp.uniq k v2 j hj
    rw [hlook k, habs0] at this
    exact Option.noConfusion this
  obtain ⟨j, val, hfind, hjlt, hjslot, hval, ich, iun, isl, imem, icf, icn⟩ :=
    insert_keyless_raw t.grown.entries t.grown.capacity mm k v hmcap wfp.len_eq
      wfp.chain wfp.uniq wfp.slots_ok habs (exists_keyless t.grown wfp hcappos)
  have hfind2 : t.grown.find_entry k = some j := hfind
  have hjlen : j < t.grown.entries.length := by rw [wfp.len_eq]; exact hjlt
  have hset : t.set k v =
      ({ count := if val.isNilValue then t.grown.count + 1 else t.grown.count,
         capacity := t.grown.capacity,
         entries := t.grown.entries.set j ⟨some k, v⟩ }, true) := by
    rw [set_eq_grown, hfind2]
    dsimp only
    rw [hjslot]
    rfl
  have hwfT1 := (set_spec_full t wf k v).1
  rw [hset] at hwfT1
  have hpairT1 : (t.grown.entries.set j ⟨some k, v⟩)[j]? = some ⟨some k, v⟩ :=
    List.getElem?_set_self hjlen
  rw [hset]
  dsimp only
  have hcountne : ({ count := if val.isNilValue then t.grown.count + 1 else t.grown.count,
                     capacity := t.grown.capacity,
                     entries := t.grown.entries.set j ⟨some k, v⟩ } : Table).count ≠ 0 := by
    have hcnt := hwfT1.count_eq
    have hpos : 0 < (t.grown.entries.set j ⟨some k, v⟩).countP (fun e => !e.isEmptySlot) :=
      List.countP_pos_iff.mpr ⟨⟨some k, v⟩, List.getElem?_mem hpairT1,
        by simp [Entry.isEmptySlot]⟩
    intro h0
    rw [h0] at hcnt
    dsimp only at hcnt
    omega
  have hfindT1 : Table.find_entry
      { count := if val.isNilValue then t.grown.count + 1 else t.grown.count,
        capacity := t.grown.capacity,
        entries := t.grown.entries.set j ⟨some k, v⟩ } k = some j :=
    find_entry_found _ hwfT1 k j v hpairT1
  have hdel : Table.delete
      { count := if val.isNilValue then t.grown.count + 1 else t.grown.count,
        capacity := t.grown.capacity,
        entries := t.grown.entries.set j ⟨some k, v⟩ } k =
      ({ count := if val.isNilValue then t.grown.count + 1 else t.grown.count,
         capacity := t.grown.capacity,
         entries := t.grown.entries.set j ⟨none, Value.Bool true⟩ }, true) := by
    unfold Table.delete
    rw [if_neg hcountne, hfindT1]
    dsimp only
    rw [hpairT1]
    dsimp only
    rw [List.set_set]
    rfl
  rw [hdel]
  dsimp only
  -- facts about the final entry array
  have h2j : (t.grown.entries.set j ⟨none, Value.Bool true⟩)[j]? =
      some ⟨none, Value.Bool true⟩ := List.getElem?_set_self hjlen
  have h2ne : ∀ i : Nat, i ≠ j →
      (t.grown.entries.set j ⟨none, Value.Bool true⟩)[i]? = t.grown.entries[i]? := by
    intro i hi
    exact List.getElem?_set_ne (Ne.symm hi)
  have hpairs2 : ∀ (k2 : LoxString) (v2 : Value),
      (∃ i : Nat, (t.grown.entries.set j ⟨none, Value.Bool true⟩)[i]? =
        some ⟨some k2, v2⟩) ↔
      (∃ i : Nat, t.grown.entries[i]? = some ⟨some k2, v2⟩) := by
    intro k2 v2
    constructor
    · rintro ⟨i, hi⟩
      have hij : i ≠ j := by
        intro h
        rw [h, h2j] at hi
        simp at hi
      rw [h2ne i hij] at hi
      exact ⟨i, hi⟩
    · rintro ⟨i, hi⟩
      have hij : i ≠ j := by
        intro h
        rw [h, hjslot] at hi
        simp at hi
      exact ⟨i, by rw [h2ne i hij]; exact hi⟩
  have hwf2 : TableWF
      { count := if val.isNilValue then t.grown.count + 1 else t.grown.count,
        capacity := t.grown.capacity,
        entries := t.grown.entries.set j ⟨none, Value.Bool true⟩ } := by
    refine ⟨Or.inr ⟨mm, hmm3, hmcap⟩, ?_, ?_, ?_, ?_, ?_, ?_⟩
    · dsimp only
      rw [List.length_set]
      exact wfp.len_eq
    · dsimp only
      have h := countP_set (fun e => !e.isEmptySlot) t.grown.entries j
        ⟨none, Value.Bool true⟩ ⟨none, val⟩ hjslot
      have hcnt := wfp.count_eq
      rcases hval with h1 | h1 <;> subst h1 <;>
        simp [Entry.isEmptySlot, Value.isNilValue] at h hcnt ⊢ <;> omega
    · dsimp only
      cases hnv : val.isNilValue <;> simp [hnv] <;> omega
    · intro e he
      obtain ⟨i, hi⟩ := List.mem_iff_getElem?.mp he
      by_cases hij : i = j
      · rw [hij, h2j] at hi
        obtain rfl : (⟨none, Value.Bool true⟩ : Entry) = e := Option.some.inj hi
        exact Or.inr (Or.inr rfl)
      · rw [h2ne i hij] at hi
        exact wfp.slots_ok e (List.getElem?_mem hi)
    · intro i2 k2 v2 h2 d hd
      have hij : i2 ≠ j := by
        intro h
        rw [h, h2j] at h2
        simp at h2
      rw [h2ne i2 hij] at h2
      obtain ⟨k3, v3, h3⟩ := wfp.chain i2 k2 v2 h2 d hd
      have hpj : (k2.hash % t.grown.capacity + d) % t.grown.capacity ≠ j := by
        intro hpj
        rw [hpj, hjslot] at h3
        simp at h3
      exact ⟨k3, v3, by rw [h2ne _ hpj]; exact h3⟩
    · intro i1 i2 k2 v1 v2 h1 h2
      have hij1 : i1 ≠ j := by
        intro h
        rw [h, h2j] at h1
        simp at h1
      have hij2 : i2 ≠ j := by
        intro h
        rw [h, h2j] at h2
        simp at h2
      rw [h2ne i1 hij1] at h1
      rw [h2ne i2 hij2] at h2
      exact wfp.uniq i1 i2 k2 v1 v2 h1 h2
  refine ⟨hwf2, rfl, ?_⟩
  intro k2
  rw [← hlook k2]
  cases hl2 : t.grown.lookup k2 with
  | some u =>
    obtain ⟨i3, hi3⟩ := pair_of_lookup_eq_some t.grown k2 u hl2
    obtain ⟨i4, hi4⟩ := (hpairs2 k2 u).mpr ⟨i3, hi3⟩
    exact lookup_eq_some_of_slot _ hwf2.uniq k2 u i4 hi4
  | none =>
    apply lookup_eq_none_of_absent
    intro j2 u hj2
    obtain ⟨i3, hi3⟩ := (hpairs2 k2 u).mp ⟨j2, hj2⟩
    have := lookup_eq_some_of_slot t.grown wfp.uniq k2 u i3 hi3
    rw [hl2] at this
    exact Option.noConfusion this

/-- The freshly created `Table::new` (count 0, capacity 0, no slots)
satisfies the representation invariant of reachable tables. -/
theorem tableWF_new : TableWF Table.new := by
  refine ⟨Or.inl rfl, rfl, rfl, ?_, ?_, ?_, ?_⟩
  · simp [Table.new, maxLoadThreshold]
  · intro e he
    simp [Table.new] at he
  · intro i k v h
    simp [Table.new] at h
  · intro i1 i2 k v1 v2 h1 h2
    simp [Table.new] at h1

/-- C4: executing `SetGlobal` referencing a name absent from a reachable
(well-formed) globals table raises the runtime error
"Undefined variable '<name>'" and leaves the globals observably
unchanged: the insert-then-delete round trip the VM performs puts the
key in a previously keyless slot and tombstones it again, so every
subsequent `Table::get` returns what it returned before the instruction.
When the name is present its entry is overwritten with the current
stack top, all other keys are untouched and no error occurs.  The
undefined case is detected exactly by `Table::set` returning `true`,
which happens iff the key was not previously present. -/
theorem C4_setGlobal_undefined_behaviour
    (ni : Nat → List Value → Value) (s : VMState) (cf : CallFrame)
    (rest : List CallFrame) (idx : Nat) (name : LoxString) (v : Value)
    (hf : s.frames = cf :: rest)
    (hop : cf.function.block.code[cf.ip]? = some (.SetGlobal idx))
    (hname : cf.function.block.read_string idx = some name)
    (hv : peekStack s.stack 0 = some v)
    (hwf : TableWF s.globals) :
    ((s.globals.set name v).2 = true ↔ s.globals.get name = none) ∧
    (s.globals.get name = none →
      step ni s = some (.err
        (.RuntimeError ("Undefined variable '" ++ name.value ++ "'"))
        { s with frames := { cf with ip := cf.ip + 1 } :: rest,
                 globals := ((s.globals.set name v).1.delete name).1 }) ∧
      (∀ k2 : LoxString,
        (((s.globals.set name v).1.delete name).1).get k2 = s.globals.get k2)) ∧
    (∀ u : Value, s.globals.get name = some u →
      step ni s = some (.ok
        { s with frames := { cf with ip := cf.ip + 1 } :: rest,
                 globals := (s.globals.set name v).1 }) ∧
      (s.globals.set name v).1.get name = some v ∧
      (∀ k2 : LoxString, k2 ≠ name →
        (s.globals.set name v).1.get k2 = s.globals.get k2)) := by
  obtain ⟨hwf1, hdet, hlook1⟩ := set_spec_full s.globals hwf name v
  have hgl : s.globals.get name = s.globals.lookup name :=
    get_eq_lookup _ hwf name
  refine ⟨by rw [hgl]; exact hdet, ?_, ?_⟩
  · intro habs
    rw [hgl] at habs
    obtain ⟨hwf2, _, hlr⟩ := set_delete_roundtrip s.globals hwf name v habs
    have hb : (s.globals.set name v).2 = true := hdet.mpr habs
    constructor
    · simp only [step, hf, hop, hname, hv]
      simp [hb]
    · intro k2
      rw [get_eq_lookup _ hwf2 k2, get_eq_lookup _ hwf k2, hlr k2]
  · intro u hpres
    rw [hgl] at hpres
    have hb : (s.globals.set name v).2 = false := by
      cases hb2 : (s.globals.set name v).2
      · rfl
      · rw [hdet.mp hb2] at hpres
        exact Option.noConfusion hpres
    refine ⟨?_, ?_, ?_⟩
    · simp only [step, hf, hop, hname, hv]
      simp [hb]
    · rw [get_eq_lookup _ hwf1 name, hlook1 name]
      simp
    · intro k2 hk2
      rw [get_eq_lookup _ hwf1 k2, hlook1 k2, if_neg hk2, get_eq_lookup _ hwf k2]

/-- Witness for C4 at a concrete state: on an empty globals table,
`SetGlobal 0` with constant `"x"` raises "Undefined variable 'x'" and a
subsequent lookup of another name returns what it did before. -/
theorem C4_setGlobal_witness :
    Table.new.get (LoxString.new "x") = none ∧
    step (fun _ _ => Value.Nil)
      { frames := [CallFrame.new (Function.mk (LoxString.new "script") 0
          (Block.mk [OpCode.SetGlobal 0] [Value.String (LoxString.new "x")] [1])) 0],
        stack := [Value.Nil], strings := Table.new, globals := Table.new } =
      some (.err
        (.RuntimeError ("Undefined variable '" ++ (LoxString.new "x").value ++ "'"))
        { frames := [{ CallFrame.new (Function.mk (LoxString.new "script") 0
            (Block.mk [OpCode.SetGlobal 0] [Value.String (LoxString.new "x")] [1])) 0
            with ip := 1 }],
          stack := [Value.Nil], strings := Table.new,
          globals := ((Table.new.set (LoxString.new "x") Value.Nil).1.delete
            (LoxString.new "x")).1 }) ∧
    (((Table.new.set (LoxString.new "x") Value.Nil).1.delete
        (LoxString.new "x")).1.get (LoxString.new "y") =
      Table.new.get (LoxString.new "y")) := by
  have h := C4_setGlobal_undefined_behaviour (fun _ _ => Value.Nil)
    { frames := [CallFrame.new (Function.mk (LoxString.new "script") 0
        (Block.mk [OpCode.SetGlobal 0] [Value.String (LoxString.new "x")] [1])) 0],
      stack := [Value.Nil], strings := Table.new, globals := Table.new }
    (CallFrame.new (Function.mk (LoxString.new "script") 0
        (Block.mk [OpCode.SetGlobal 0] [Value.String (LoxString.new "x")] [1])) 0)
    [] 0 (LoxString.new "x") Value.Nil rfl rfl rfl rfl tableWF_new
  have habs : Table.new.get (LoxString.new "x") = none := rfl
  obtain ⟨hstep, hpre⟩ := h.2.1 habs
  exact ⟨habs, hstep, hpre (LoxString.new "y")⟩

end Tapssp
